import Mathlib

/-!
Verification development for the `ingreedy-rs` recipe-ingredient parser.

The repository has two layers:

* a pest grammar (`grammar.pest`, referenced from `src/lib.rs` via
  `#[grammar = "grammar.pest"]`) that turns an input line into a parse
  tree of `Pair<Rule>` nodes, and
* a semantic extractor in `src/lib.rs` that folds the parse tree into an
  `Ingredient` record.

The extractor is embedded faithfully from `src/lib.rs`.  The grammar file
itself is not part of the sources available here, so the grammar engine is
modelled from the specification (spec.md §4.1), constrained by the
extractor's expectations and by the repository's own test corpus in
`src/lib.rs`.

Rust `f64` values are modelled by `FVal`: an exact rational plus the IEEE
special values `+inf`, `-inf` and `NaN`.  Rounding is not modelled; every
numeric value reached in the claims is exactly representable, and the
properties proved about all inputs (sign, presence of units, absence of
panics) are insensitive to rounding.  Rust `String`/`&str` values are
modelled as `List Char`.
-/

namespace Ingreedy

/-- Rust strings are modelled as lists of characters. -/
abbrev RStr := List Char

/-- Model of an IEEE double as produced by the extractor: an exact rational
together with the special values.  `parse_multicharacter_fraction` divides
two parsed numbers, so division by zero (e.g. the input fragment `1/0`)
produces `posInf` or `nan` exactly as Rust `f64` division does. -/
inductive FVal where
  | num (q : ℚ)
  | posInf
  | negInf
  | nan
deriving DecidableEq, Repr

/-- IEEE multiplication on the model, exact on rationals. -/
def FVal.mul : FVal → FVal → FVal
  | nan, _ => nan
  | _, nan => nan
  | num a, num b => num (a * b)
  | num a, posInf => if a = 0 then nan else if 0 < a then posInf else negInf
  | num a, negInf => if a = 0 then nan else if 0 < a then negInf else posInf
  | posInf, num b => if b = 0 then nan else if 0 < b then posInf else negInf
  | negInf, num b => if b = 0 then nan else if 0 < b then negInf else posInf
  | posInf, posInf => posInf
  | posInf, negInf => negInf
  | negInf, posInf => negInf
  | negInf, negInf => posInf

/-- IEEE addition on the model, exact on rationals. -/
def FVal.add : FVal → FVal → FVal
  | nan, _ => nan
  | _, nan => nan
  | num a, num b => num (a + b)
  | num _, posInf => posInf
  | posInf, num _ => posInf
  | num _, negInf => negInf
  | negInf, num _ => negInf
  | posInf, posInf => posInf
  | negInf, negInf => negInf
  | posInf, negInf => nan
  | negInf, posInf => nan

/-- IEEE division on the model, exact on rationals; division of a nonzero
number by zero gives an infinity and `0/0` gives `nan`, as in Rust. -/
def FVal.div : FVal → FVal → FVal
  | nan, _ => nan
  | _, nan => nan
  | num a, num b =>
      if b = 0 then (if a = 0 then nan else if 0 < a then posInf else negInf)
      else num (a / b)
  | num _, posInf => num 0
  | num _, negInf => num 0
  | posInf, num b => if 0 ≤ b then posInf else negInf
  | negInf, num b => if 0 ≤ b then negInf else posInf
  | posInf, posInf => nan
  | posInf, negInf => nan
  | negInf, posInf => nan
  | negInf, negInf => nan

/-- A value is negative when it is a negative rational or `-inf`. -/
def FVal.isNeg : FVal → Bool
  | num q => decide (q < 0)
  | negInf => true
  | _ => false

/-- A value is finite when it is an actual rational. -/
def FVal.isFinite : FVal → Bool
  | num _ => true
  | _ => false

/-- Numeric value of a list of ASCII digits, most significant first. -/
def digitsVal : List Char → ℕ → ℕ
  | [], acc => acc
  | c :: rest, acc => digitsVal rest (acc * 10 + (c.toNat - 48))

/-- Model of Rust `str::parse::<f64>` on an unsigned decimal literal:
`digits`, `digits.digits`, `.digits` or `digits.`.  The exotic forms Rust
also accepts (`inf`, `NaN`, exponents) can never appear in a span matched
by the grammar's numeric rules, so they are not modelled. -/
def parseUnsignedF64? (s : RStr) : Option ℚ :=
  let intPart := s.takeWhile Char.isDigit
  let rest := s.dropWhile Char.isDigit
  match rest with
  | [] => if intPart.isEmpty then none else some ((digitsVal intPart 0 : ℕ) : ℚ)
  | '.' :: frac =>
      if frac.all Char.isDigit then
        if intPart.isEmpty && frac.isEmpty then none
        else some (((digitsVal intPart 0 : ℕ) : ℚ) +
                   ((digitsVal frac 0 : ℕ) : ℚ) / ((10 : ℚ) ^ frac.length))
      else none
  | _ => none

/-- Model of Rust `str::parse::<f64>`, with an optional sign. -/
def parseF64? (s : RStr) : Option ℚ :=
  match s with
  | [] => none
  | c :: rest =>
      if c = '-' then (parseUnsignedF64? rest).map (fun q => -q)
      else if c = '+' then parseUnsignedF64? rest
      else parseUnsignedF64? s

/-- The `NUMBER_VALUE` table of `src/lib.rs`: spelled-out number words and
their magnitudes. -/
def NUMBER_VALUE : List (RStr × ℚ) :=
  [("a".data, 1), ("an".data, 1), ("zero".data, 0), ("one".data, 1),
   ("two".data, 2), ("three".data, 3), ("four".data, 4), ("five".data, 5),
   ("six".data, 6), ("seven".data, 7), ("eight".data, 8), ("nine".data, 9),
   ("ten".data, 10), ("eleven".data, 11), ("twelve".data, 12),
   ("thirteen".data, 13), ("fourteen".data, 14), ("fifteen".data, 15),
   ("sixteen".data, 16), ("seventeen".data, 17), ("eighteen".data, 18),
   ("nineteen".data, 19), ("twenty".data, 20), ("thirty".data, 30),
   ("forty".data, 40), ("fifty".data, 50), ("sixty".data, 60),
   ("seventy".data, 70), ("eighty".data, 80), ("ninety".data, 90)]

/-- The `UNICODE_FRACTION_VALUE` table of `src/lib.rs`: precomposed
fraction glyphs and their values. -/
def UNICODE_FRACTION_VALUE : List (RStr × ℚ) :=
  [("¼".data, 1/4), ("½".data, 1/2), ("¾".data, 3/4), ("⅐".data, 1/7),
   ("⅑".data, 1/9), ("⅒".data, 1/10), ("⅓".data, 1/3), ("⅔".data, 2/3),
   ("⅕".data, 1/5), ("⅖".data, 2/5), ("⅗".data, 3/5), ("⅘".data, 4/5),
   ("⅙".data, 1/6), ("⅚".data, 5/6), ("⅛".data, 1/8), ("⅜".data, 3/8),
   ("⅝".data, 5/8), ("⅞".data, 7/8)]

/-- Lookup in one of the two lexical tables; `none` models the panicking
`HashMap` index operator finding no entry. -/
def lookupTable (tbl : List (RStr × ℚ)) (key : RStr) : Option ℚ :=
  (tbl.find? (fun e => e.1 == key)).map (fun e => e.2)

/-- Model of Rust `str::trim` on the spans the extractor trims (the grammar
only ever inserts spaces around words). -/
def rstrTrim (s : RStr) : RStr :=
  ((s.dropWhile (fun c => c = ' ')).reverse.dropWhile (fun c => c = ' ')).reverse

/-- The grammar-rule identifiers: the `Rule` enum that pest derives from
`grammar.pest`.  The rules named by `src/lib.rs` are taken from the source;
the per-unit leaf rules are modelled from the spec's unit tables (the
extractor stores `format!("{:?}", rule)` of the leaf rule as the canonical
unit name, which fixes their spellings through the test corpus). -/
inductive Rule where
  | ingredient_addition
  | multipart_quantity
  | quantity_fragment
  | quantity
  | amount
  | unit
  | amount_with_conversion
  | amount_with_attached_units
  | amount_with_multiplier
  | amount_imprecise
  | parenthesized_quantity
  | open_paren
  | conversion
  | english_unit
  | metric_unit
  | imprecise_unit
  | integer
  | float
  | fraction
  | multicharacter_fraction
  | unicode_fraction
  | mixed_number
  | separator
  | number
  | word
  | ingredient
  | cup
  | ounce
  | pound
  | tablespoon
  | teaspoon
  | gallon
  | pint
  | fluid_ounce
  | calorie
  | gram
  | kilogram
  | milliliter
  | joule
  | kilojoule
  | pinch
  | dash
  | handful
deriving DecidableEq, Repr

/-- Model of `format!("{:?}", rule)`: the printed name of a rule. -/
def Rule.name : Rule → RStr
  | .ingredient_addition => "ingredient_addition".data
  | .multipart_quantity => "multipart_quantity".data
  | .quantity_fragment => "quantity_fragment".data
  | .quantity => "quantity".data
  | .amount => "amount".data
  | .unit => "unit".data
  | .amount_with_conversion => "amount_with_conversion".data
  | .amount_with_attached_units => "amount_with_attached_units".data
  | .amount_with_multiplier => "amount_with_multiplier".data
  | .amount_imprecise => "amount_imprecise".data
  | .parenthesized_quantity => "parenthesized_quantity".data
  | .open_paren => "open_paren".data
  | .conversion => "conversion".data
  | .english_unit => "english_unit".data
  | .metric_unit => "metric_unit".data
  | .imprecise_unit => "imprecise_unit".data
  | .integer => "integer".data
  | .float => "float".data
  | .fraction => "fraction".data
  | .multicharacter_fraction => "multicharacter_fraction".data
  | .unicode_fraction => "unicode_fraction".data
  | .mixed_number => "mixed_number".data
  | .separator => "separator".data
  | .number => "number".data
  | .word => "word".data
  | .ingredient => "ingredient".data
  | .cup => "cup".data
  | .ounce => "ounce".data
  | .pound => "pound".data
  | .tablespoon => "tablespoon".data
  | .teaspoon => "teaspoon".data
  | .gallon => "gallon".data
  | .pint => "pint".data
  | .fluid_ounce => "fluid_ounce".data
  | .calorie => "calorie".data
  | .gram => "gram".data
  | .kilogram => "kilogram".data
  | .milliliter => "milliliter".data
  | .joule => "joule".data
  | .kilojoule => "kilojoule".data
  | .pinch => "pinch".data
  | .dash => "dash".data
  | .handful => "handful".data

/-- A parse-tree node: the model of pest's `Pair<Rule>`.  `text` models
`as_str` (the matched span) and `children` models `into_inner`.  The spans
of interior nodes are never consulted by the extractor, so the grammar
model fills them in only where they are read. -/
inductive PTree where
  | node (rule : Rule) (text : RStr) (children : List PTree)

/-- The rule label of a node (`Pair::as_rule`). -/
def PTree.rule : PTree → Rule
  | .node r _ _ => r

/-- The matched span of a node (`Pair::as_str`). -/
def PTree.text : PTree → RStr
  | .node _ t _ => t

/-- The child nodes of a node (`Pair::into_inner`). -/
def PTree.children : PTree → List PTree
  | .node _ _ cs => cs

mutual

/-- Number of nodes of a parse tree; used as recursion fuel. -/
def PTree.size : PTree → Nat
  | .node _ _ cs => 1 + PTree.sizeL cs

/-- Total number of nodes of a list of parse trees. -/
def PTree.sizeL : List PTree → Nat
  | [] => 0
  | c :: rest => PTree.size c + PTree.sizeL rest

end

/-! ### The grammar engine, modelled from the spec

`grammar.pest` is code of this repository that is not under `src/`; every
definition in this section is therefore modelled from spec.md §4.1,
pinned down where the spec is loose by the extractor's expectations and
the test corpus in `src/lib.rs`.  Parsers consume a `List Char` and
return the matched node together with the unconsumed input.  The one
recursive production (`amount_with_multiplier` contains a parenthesized
`quantity`) is handled with fuel; the top entry point supplies
`length + 1` fuel, which can never be exhausted because each nesting
level consumes at least the opening parenthesis. -/

/-- Modelled from the spec: a word boundary check — a unit spelling or a
number word only matches when not followed by another letter (so `apple`
is not the number word `a`, and `grams` is not the unit `g`). -/
def boundaryOk : RStr → Bool
  | [] => true
  | c :: _ => !c.isAlpha

/-- Modelled from the spec: `integer` is one or more ASCII digits. -/
def pInteger (s : RStr) : Option (PTree × RStr) :=
  let ds := s.takeWhile Char.isDigit
  if ds.isEmpty then none
  else some (.node .integer ds [], s.dropWhile Char.isDigit)

/-- Modelled from the spec: `float` is `digits "." digits` or `"." digits`
(decimal literal, optionally with a leading dot as in `.25`). -/
def pFloat (s : RStr) : Option (PTree × RStr) :=
  let intPart := s.takeWhile Char.isDigit
  let rest := s.dropWhile Char.isDigit
  match rest with
  | '.' :: r2 =>
      let frac := r2.takeWhile Char.isDigit
      if frac.isEmpty then none
      else some (.node .float (intPart ++ '.' :: frac) [], r2.dropWhile Char.isDigit)
  | _ => none

/-- Modelled from the spec: `multicharacter_fraction` is
`digits "/" digits`, kept as its literal span. -/
def pMultiFraction (s : RStr) : Option (PTree × RStr) :=
  let nm := s.takeWhile Char.isDigit
  let r1 := s.dropWhile Char.isDigit
  if nm.isEmpty then none
  else
    match r1 with
    | '/' :: r2 =>
        let dn := r2.takeWhile Char.isDigit
        if dn.isEmpty then none
        else some (.node .multicharacter_fraction (nm ++ '/' :: dn) [], r2.dropWhile Char.isDigit)
    | _ => none

/-- Modelled from the spec: `unicode_fraction` is a single precomposed
fraction glyph from the glyph table. -/
def pUnicodeFraction (s : RStr) : Option (PTree × RStr) :=
  match s with
  | [] => none
  | c :: rest =>
      if UNICODE_FRACTION_VALUE.any (fun e => e.1 == [c]) then
        some (.node .unicode_fraction [c] [], rest)
      else none

/-- Modelled from the spec: `fraction` is a multicharacter fraction or a
unicode fraction glyph, wrapped in a `fraction` node. -/
def pFraction (s : RStr) : Option (PTree × RStr) :=
  match pMultiFraction s with
  | some (t, r) => some (.node .fraction t.text [t], r)
  | none =>
      match pUnicodeFraction s with
      | some (t, r) => some (.node .fraction t.text [t], r)
      | none => none

/-- Modelled from the spec: the `separator` inside a mixed number is
whitespace or a single `-`. -/
def pSeparator (s : RStr) : Option (PTree × RStr) :=
  match s with
  | ' ' :: rest =>
      some (.node .separator (' ' :: rest.takeWhile (fun c => c = ' ')) [],
            rest.dropWhile (fun c => c = ' '))
  | '-' :: rest => some (.node .separator ['-'] [], rest)
  | _ => none

/-- Modelled from the spec: `mixed_number` is `integer separator fraction`. -/
def pMixed (s : RStr) : Option (PTree × RStr) := do
  let (ti, r1) ← pInteger s
  let (ts, r2) ← pSeparator r1
  let (tf, r3) ← pFraction r2
  some (.node .mixed_number [] [ti, ts, tf], r3)

/-- The number words accepted by the grammar: the keys of the
`NUMBER_VALUE` table (the extractor indexes the table with the matched
word, so the two sets must coincide for the code not to panic). -/
def numberWordKeys : List RStr := NUMBER_VALUE.map (fun e => e.1)

/-- Modelled from the spec: `number_word` is a spelled-out cardinal word,
matched as a whole word.  The `number` node wraps an inner node carrying
the word's span, mirroring `get_next_inner_pair` in the extractor. -/
def pNumberWord (s : RStr) : Option (PTree × RStr) :=
  match numberWordKeys.find? (fun w => w.isPrefixOf s && boundaryOk (s.drop w.length)) with
  | some w => some (.node .number w [.node .word w []], s.drop w.length)
  | none => none

/-- Modelled from the spec: the sub-forms of `amount`, with the composite
forms tried before their prefixes (mixed number before float, fraction and
integer) as the repository's test corpus requires. -/
def pAmountInner (s : RStr) : Option (PTree × RStr) :=
  match pMixed s with
  | some x => some x
  | none =>
      match pFloat s with
      | some x => some x
      | none =>
          match pFraction s with
          | some x => some x
          | none =>
              match pInteger s with
              | some x => some x
              | none => pNumberWord s

/-- Modelled from the spec: an `amount` node wrapping one numeric sub-form. -/
def pAmount (s : RStr) : Option (PTree × RStr) :=
  match pAmountInner s with
  | some (t, r) => some (.node .amount [] [t], r)
  | none => none

/-- Modelled from the spec: surface spellings of English units and the
leaf rule each maps to. -/
def englishUnits : List (RStr × Rule) :=
  [("cups".data, .cup), ("cup".data, .cup),
   ("ounces".data, .ounce), ("ounce".data, .ounce), ("oz".data, .ounce),
   ("pounds".data, .pound), ("pound".data, .pound),
   ("lbs".data, .pound), ("lb".data, .pound),
   ("tablespoons".data, .tablespoon), ("tablespoon".data, .tablespoon),
   ("teaspoons".data, .teaspoon), ("teaspoon".data, .teaspoon),
   ("gallons".data, .gallon), ("gallon".data, .gallon),
   ("pints".data, .pint), ("pint".data, .pint),
   ("fl oz".data, .fluid_ounce),
   ("kcal".data, .calorie), ("calories".data, .calorie),
   ("calorie".data, .calorie), ("cal".data, .calorie)]

/-- Modelled from the spec: surface spellings of metric units. -/
def metricUnits : List (RStr × Rule) :=
  [("grams".data, .gram), ("gram".data, .gram), ("g".data, .gram),
   ("kilograms".data, .kilogram), ("kilogram".data, .kilogram), ("kg".data, .kilogram),
   ("milliliters".data, .milliliter), ("milliliter".data, .milliliter), ("ml".data, .milliliter),
   ("kilojoules".data, .kilojoule), ("kilojoule".data, .kilojoule), ("kJ".data, .kilojoule),
   ("joules".data, .joule), ("joule".data, .joule)]

/-- Modelled from the spec: surface spellings of imprecise units. -/
def impreciseUnits : List (RStr × Rule) :=
  [("pinches".data, .pinch), ("pinch".data, .pinch),
   ("dashes".data, .dash), ("dash".data, .dash),
   ("handfuls".data, .handful), ("handful".data, .handful)]

/-- Modelled from the spec: match one unit spelling from a table, as a
whole word. -/
def findUnit (tbl : List (RStr × Rule)) (s : RStr) : Option (RStr × Rule × RStr) :=
  match tbl.find? (fun e => e.1.isPrefixOf s && boundaryOk (s.drop e.1.length)) with
  | some (w, r) => some (w, r, s.drop w.length)
  | none => none

/-- Modelled from the spec: a unit-system node (`english_unit`,
`metric_unit` or `imprecise_unit`) wrapping the leaf rule of the matched
spelling, as the extractor's two `get_next_inner_pair` steps expect. -/
def pSystemUnit (sys : Rule) (tbl : List (RStr × Rule)) (s : RStr) : Option (PTree × RStr) :=
  match findUnit tbl s with
  | some (w, r, rest) => some (.node sys w [.node r w []], rest)
  | none => none

/-- Modelled from the spec: `unit` is an English, metric or imprecise
unit, in that order. -/
def pUnit (s : RStr) : Option (PTree × RStr) :=
  match pSystemUnit .english_unit englishUnits s with
  | some (t, r) => some (.node .unit t.text [t], r)
  | none =>
      match pSystemUnit .metric_unit metricUnits s with
      | some (t, r) => some (.node .unit t.text [t], r)
      | none =>
          match pSystemUnit .imprecise_unit impreciseUnits s with
          | some (t, r) => some (.node .unit t.text [t], r)
          | none => none

/-- Modelled from the spec: the optional glue between an amount and its
attached unit — whitespace or a single `-` (as in `16-ounce`). -/
def skipAmountUnitSep (s : RStr) : RStr :=
  match s with
  | '-' :: r => r
  | _ => s.dropWhile (fun c => c = ' ')

/-- Modelled from the spec: `amount_with_attached_units` is an amount
loosely followed by a unit. -/
def pAttached (s : RStr) : Option (PTree × RStr) := do
  let (ta, r1) ← pAmount s
  let (tu, r2) ← pUnit (skipAmountUnitSep r1)
  some (.node .amount_with_attached_units [] [ta, tu], r2)

/-- Modelled from the spec: `amount_with_conversion` is an amount/unit
pair followed by `"/" amount unit` or `"(" amount unit ")"`.  The second
pair is wrapped in a `conversion` node, which carries a rule label the
extractor does not react to — this is the structural encoding of the
spec's rule that the conversion pair "must not be relabeled the same way"
as the primary pair. -/
def pConversion (s : RStr) : Option (PTree × RStr) := do
  let (ta, r1) ← pAmount s
  let (tu, r2) ← pUnit (skipAmountUnitSep r1)
  match r2.dropWhile (fun c => c = ' ') with
  | '/' :: r3 => do
      let (tb, r4) ← pAmount (r3.dropWhile (fun c => c = ' '))
      let (tv, r5) ← pUnit (skipAmountUnitSep r4)
      some (.node .amount_with_conversion [] [ta, tu, .node .conversion [] [tb, tv]], r5)
  | '(' :: r3 => do
      let (tb, r4) ← pAmount (r3.dropWhile (fun c => c = ' '))
      let (tv, r5) ← pUnit (skipAmountUnitSep r4)
      match r5.dropWhile (fun c => c = ' ') with
      | ')' :: r6 =>
          some (.node .amount_with_conversion [] [ta, tu, .node .conversion [] [tb, tv]], r6)
      | _ => none
  | _ => none

/-- Modelled from the spec: `amount_imprecise` is a lone imprecise unit;
its single child is the `imprecise_unit` node itself (not wrapped in a
`unit` node), as the extractor's `amount_imprecise` arm expects. -/
def pImprecise (s : RStr) : Option (PTree × RStr) :=
  match pSystemUnit .imprecise_unit impreciseUnits s with
  | some (t, r) => some (.node .amount_imprecise [] [t], r)
  | none => none

/-- Modelled from the spec: `amount "(" quantity ")"` — the parenthesized
quantity body, parameterized by the parser for the inner quantity choice.
The `parenthesized_quantity` node's first child models the explicit
open-parenthesis rule that the extractor skips with its first
`next().unwrap()`; the second child is the inner quantity form. -/
def pMultiplierGen (recChoice : RStr → Option (PTree × RStr)) (s : RStr) :
    Option (PTree × RStr) := do
  let (ta, r1) ← pAmount s
  match r1.dropWhile (fun c => c = ' ') with
  | '(' :: r2 => do
      let (tq, r3) ← recChoice (r2.dropWhile (fun c => c = ' '))
      match r3.dropWhile (fun c => c = ' ') with
      | ')' :: r4 =>
          some (.node .amount_with_multiplier []
                  [ta, .node .parenthesized_quantity []
                         [.node .open_paren ['('] [], tq]], r4)
      | _ => none
  | _ => none

/-- Modelled from the spec: the ordered alternatives of `quantity` —
conversion, attached units, multiplier, imprecise.  Fuel bounds the
nesting of parenthesized quantities. -/
def pChoice : Nat → RStr → Option (PTree × RStr)
  | 0, _ => none
  | n+1, s =>
      match pConversion s with
      | some x => some x
      | none =>
          match pAttached s with
          | some x => some x
          | none =>
              match pMultiplierGen (pChoice n) s with
              | some x => some x
              | none => pImprecise s

/-- Modelled from the spec: a `quantity` node wrapping the chosen form. -/
def pQuantity (n : Nat) (s : RStr) : Option (PTree × RStr) :=
  match pChoice n s with
  | some (t, r) => some (.node .quantity [] [t], r)
  | none => none

/-- Modelled from the spec: a `quantity_fragment` is a fully classified
quantity or a bare amount; the quantity alternative is tried first, as
the test corpus (`2lb`, `12oz`, ...) requires. -/
def pFragment (n : Nat) (s : RStr) : Option (PTree × RStr) :=
  match pQuantity n s with
  | some (t, r) => some (.node .quantity_fragment [] [t], r)
  | none =>
      match pAmount s with
      | some (t, r) => some (.node .quantity_fragment [] [t], r)
      | none => none

/-- Modelled from the spec: the separator between quantity fragments —
whitespace or a `/`. -/
def pSepMP (s : RStr) : Option RStr :=
  match s with
  | ' ' :: r => some (r.dropWhile (fun c => c = ' '))
  | '/' :: r => some r
  | _ => none

/-- Modelled from the spec: the `(separator quantity_fragment)*` tail of
`multipart_quantity`; a separator not followed by a fragment is left
unconsumed. -/
def pMoreFragments : Nat → RStr → (List PTree × RStr)
  | 0, s => ([], s)
  | n+1, s =>
      match pSepMP s with
      | none => ([], s)
      | some r1 =>
          match pFragment (n+1) r1 with
          | none => ([], s)
          | some (t, r2) =>
              let (ts, r3) := pMoreFragments n r2
              (t :: ts, r3)

/-- Modelled from the spec: `multipart_quantity` is one or more quantity
fragments joined by separators. -/
def pMultipart (n : Nat) (s : RStr) : Option (PTree × RStr) :=
  match pFragment n s with
  | none => none
  | some (t, r1) =>
      let (ts, r2) := pMoreFragments n r1
      some (.node .multipart_quantity [] (t :: ts), r2)

/-- Modelled from the spec: the top rule `ingredient_addition` is an
optional multipart quantity followed by the optional remaining text as
the `ingredient`; spaces and one comma separating the two are consumed
(the repository's test corpus shows `3-⅝ ounces, weight feta cheese`
yields the ingredient `weight feta cheese`).  Like pest parsing with a
silent top rule, the result is the list of top-level nodes the extractor
iterates over. -/
def parseTrees (s : RStr) : List PTree :=
  let n := s.length + 1
  match pMultipart n s with
  | some (mp, r1) =>
      let r2 := r1.dropWhile (fun c => c = ' ')
      let r3 := match r2 with
        | ',' :: rr => rr.dropWhile (fun c => c = ' ')
        | _ => r2
      if r3.isEmpty then [mp] else [mp, .node .ingredient r3 []]
  | none =>
      if s.isEmpty then [] else [.node .ingredient s []]

/-! ### The semantic extractor, from `src/lib.rs`

Everything below is a direct translation of `src/lib.rs` (lines 14–297).
Rust panics (the `panic!` in the mixed-number arm, `unwrap` on the
parenthesized quantity, the unchecked `numbers[0] / numbers[1]` indexing
and the `HashMap` index operator) are modelled as a distinct `panicked`
outcome, separate from the `IngreedyError` results the code returns. -/

/-- The `IngreedyError` enum of `src/lib.rs` (pest errors carry no payload
in the model; the payloads are never inspected). -/
inductive IngreedyError where
  | wrongRule (found : RStr) (rule : RStr)
  | parseFloatError
  | pestParseError
  | innerRuleNoneError
deriving DecidableEq, Repr

/-- Outcome of running a fallible extractor function: an `IngreedyError`
result, or a Rust panic (which in the source aborts the process rather
than being returned). -/
inductive PError where
  | err (e : IngreedyError)
  | panicked (msg : RStr)
deriving DecidableEq, Repr

/-- The `UnitType` enum of `src/lib.rs`. -/
inductive UnitType where
  | English
  | Metric
  | Imprecise
deriving DecidableEq, Repr

/-- The `Quantity` struct of `src/lib.rs`. -/
structure Quantity where
  amount : FVal
  unit : Option RStr
  unit_type : Option UnitType
deriving DecidableEq, Repr

/-- `Quantity::default()`: amount `0.0`, no unit, no unit type. -/
def dfltQ : Quantity := { amount := .num 0, unit := none, unit_type := none }

/-- The `Ingredient` struct of `src/lib.rs`. -/
structure Ingredient where
  quantities : List Quantity
  ingredient : Option RStr
deriving DecidableEq, Repr

/-- `get_next_inner_pair` of `src/lib.rs` (lines 235–239): the first child
of a pair, or `InnerRuleNoneError`. -/
def get_next_inner_pair (p : PTree) : Except PError PTree :=
  match p.children with
  | [] => .error (.err .innerRuleNoneError)
  | c :: _ => .ok c

/-- `UnitType::parse` of `src/lib.rs` (lines 127–134). -/
def UnitType.parse (p : PTree) : Except PError UnitType :=
  match p.rule with
  | .imprecise_unit => .ok .Imprecise
  | .metric_unit => .ok .Metric
  | .english_unit => .ok .English
  | _ => .error (.err (.wrongRule p.text "unit_type".data))

/-- Rust `str::split('/')` on the model strings. -/
def splitOnSlash : RStr → List RStr
  | [] => [[]]
  | c :: rest =>
      if c = '/' then [] :: splitOnSlash rest
      else
        match splitOnSlash rest with
        | [] => [[c]]
        | p :: ps => (c :: p) :: ps

/-- The `collect::<Result<Vec<_>, _>>` step of
`parse_multicharacter_fraction`: parse every piece as a float, stopping at
the first failure. -/
def collectF64 : List RStr → Except PError (List ℚ)
  | [] => .ok []
  | p :: rest =>
      match parseF64? p with
      | some q =>
          match collectF64 rest with
          | .ok qs => .ok (q :: qs)
          | .error e => .error e
      | none => .error (.err .parseFloatError)

/-- `parse_multicharacter_fraction` of `src/lib.rs` (lines 145–151):
split on `/`, parse every piece as a float, then divide the first two
entries — indexing `numbers[1]` panics when the span contains no slash. -/
def parse_multicharacter_fraction (s : RStr) : Except PError FVal :=
  match collectF64 (splitOnSlash s) with
  | .error e => .error e
  | .ok (a :: b :: _) => .ok (FVal.div (.num a) (.num b))
  | .ok _ => .error (.panicked "index out of bounds".data)

/-- `parse_fraction` of `src/lib.rs` (lines 153–159); the `HashMap` index
panics when the glyph is not in the table. -/
def parse_fraction (p : PTree) : Except PError FVal :=
  match p.rule with
  | .multicharacter_fraction => parse_multicharacter_fraction p.text
  | .unicode_fraction =>
      match lookupTable UNICODE_FRACTION_VALUE p.text with
      | some v => .ok (.num v)
      | none => .error (.panicked "key not found".data)
  | _ => .error (.err (.wrongRule p.text "fraction".data))

/-- The body of the `mixed_number` arm of `parse_amount` (lines 165–179):
a left-to-right `filter_map`/`sum` where `ok()` silently drops
`IngreedyError`s of sub-parses, a missing inner pair is skipped, and any
child with an unexpected rule hits the `panic!` branch. -/
def mixedSum : List PTree → FVal → Except PError FVal
  | [], acc => .ok acc
  | c :: rest, acc =>
      match c.rule with
      | .integer =>
          match parseF64? c.text with
          | some q => mixedSum rest (acc.add (.num q))
          | none => mixedSum rest acc
      | .fraction =>
          match c.children.head? with
          | some inner =>
              match parse_fraction inner with
              | .ok v => mixedSum rest (acc.add v)
              | .error (.panicked m) => .error (.panicked m)
              | .error (.err _) => mixedSum rest acc
          | none => mixedSum rest acc
      | .separator => mixedSum rest acc
      | _ => .error (.panicked "wrong rule for mixed_number".data)

/-- `parse_amount` of `src/lib.rs` (lines 161–183). -/
def parse_amount (p : PTree) : Except PError FVal :=
  match p.rule with
  | .float =>
      match parseF64? p.text with
      | some q => .ok (.num q)
      | none => .error (.err .parseFloatError)
  | .integer =>
      match parseF64? p.text with
      | some q => .ok (.num q)
      | none => .error (.err .parseFloatError)
  | .fraction =>
      match get_next_inner_pair p with
      | .error e => .error e
      | .ok inner => parse_fraction inner
  | .mixed_number => mixedSum p.children (.num 0)
  | .number =>
      match get_next_inner_pair p with
      | .error e => .error e
      | .ok inner =>
          match lookupTable NUMBER_VALUE (rstrTrim inner.text) with
          | some v => .ok (.num v)
          | none => .error (.panicked "key not found".data)
  | _ => .error (.err (.wrongRule p.text "amount".data))

/-- The child loop of the `amount_with_conversion` /
`amount_with_attached_units` arm of `Quantity::parse` (lines 189–204):
an `amount` child sets the quantity's amount, a `unit` child classifies
the unit and stores the leaf rule's printed name, and any other child
(in particular the `conversion` pair) is skipped. -/
def convLoop : List PTree → Quantity → Except PError Quantity
  | [], q => .ok q
  | c :: rest, q =>
      match c.rule with
      | .amount =>
          match get_next_inner_pair c with
          | .error e => .error e
          | .ok inner =>
              match parse_amount inner with
              | .error e => .error e
              | .ok v => convLoop rest { q with amount := v }
      | .unit =>
          match get_next_inner_pair c with
          | .error e => .error e
          | .ok u =>
              match UnitType.parse u with
              | .error e => .error e
              | .ok ut =>
                  match get_next_inner_pair u with
                  | .error e => .error e
                  | .ok nm =>
                      convLoop rest { q with unit := some nm.rule.name, unit_type := some ut }
      | _ => convLoop rest q

/-- The child loop of the `amount_with_multiplier` arm of
`Quantity::parse` (lines 205–221), parameterized by the recursive call on
the parenthesized quantity.  The two `next().unwrap()` calls on the
parenthesized quantity's children panic when fewer than two children are
present. -/
def mulLoopGen (recQ : PTree → Except PError Quantity) :
    List PTree → FVal → Quantity → Except PError Quantity
  | [], _, q => .ok q
  | c :: rest, mult, q =>
      match c.rule with
      | .amount =>
          match get_next_inner_pair c with
          | .error e => .error e
          | .ok inner =>
              match parse_amount inner with
              | .error e => .error e
              | .ok v => mulLoopGen recQ rest v q
      | .parenthesized_quantity =>
          match c.children with
          | _ :: second :: _ =>
              match recQ second with
              | .error e => .error e
              | .ok q2 =>
                  mulLoopGen recQ rest mult { q2 with amount := q2.amount.mul mult }
          | _ => .error (.panicked "called Option unwrap on a None value".data)
      | _ => mulLoopGen recQ rest mult q

/-- `Quantity::parse` of `src/lib.rs` (lines 185–233), with fuel bounding
the recursion through parenthesized quantities.  The recursion descends
strictly into subtrees, so fuel `PTree.size p` (supplied by
`Quantity.parse`) is never exhausted; this is proved, not assumed, as
part of the no-panic theorem. -/
def Quantity.parseQ : Nat → PTree → Except PError Quantity
  | 0, _ => .error (.panicked "recursion fuel exhausted".data)
  | n+1, p =>
      match p.rule with
      | .amount_with_conversion => convLoop p.children dfltQ
      | .amount_with_attached_units => convLoop p.children dfltQ
      | .amount_with_multiplier => mulLoopGen (Quantity.parseQ n) p.children (.num 1) dfltQ
      | .amount_imprecise =>
          match get_next_inner_pair p with
          | .error e => .error e
          | .ok u =>
              match UnitType.parse u with
              | .error e => .error e
              | .ok ut =>
                  match get_next_inner_pair u with
                  | .error e => .error e
                  | .ok nm =>
                      .ok { amount := .num 1, unit := some nm.rule.name, unit_type := some ut }
      | _ => .error (.err (.wrongRule p.text "quantity".data))

/-- `Quantity::parse`, at its natural fuel. -/
def Quantity.parse (p : PTree) : Except PError Quantity :=
  Quantity.parseQ (PTree.size p) p

/-- The per-fragment conversion of `Ingredient::parse_pairs`
(lines 260–274): a bare `amount` fragment becomes a unit-less quantity, a
`quantity` fragment is parsed by `Quantity::parse`, anything else is a
`WrongRule` error. -/
def fragToQuantity (qf : PTree) : Except PError Quantity :=
  match qf.rule with
  | .amount =>
      match get_next_inner_pair qf with
      | .error e => .error e
      | .ok inner =>
          match parse_amount inner with
          | .error e => .error e
          | .ok v => .ok { amount := v, unit := none, unit_type := none }
  | .quantity =>
      match get_next_inner_pair qf with
      | .error e => .error e
      | .ok inner => Quantity.parse inner
  | _ => .error (.err (.wrongRule qf.text "quantity_fragment".data))

/-- The fragment loop of the `multipart_quantity` arm of
`Ingredient::parse_pairs` (lines 256–283), including the merge rule: when
the accumulated list's first quantity has no unit, the new quantity's
amount is multiplied by it and the list is replaced by the scaled new
quantity alone. -/
def mpLoop : List PTree → Ingredient → Except PError Ingredient
  | [], ing => .ok ing
  | c :: rest, ing =>
      if c.rule = .quantity_fragment then
        match get_next_inner_pair c with
        | .error e => .error e
        | .ok qf =>
            match fragToQuantity qf with
            | .error e => .error e
            | .ok q =>
                match ing.quantities.head? with
                | some q0 =>
                    if q0.unit = none then
                      mpLoop rest { ing with quantities := [{ q with amount := q.amount.mul q0.amount }] }
                    else
                      mpLoop rest { ing with quantities := ing.quantities ++ [q] }
                | none => mpLoop rest { ing with quantities := ing.quantities ++ [q] }
      else mpLoop rest ing

/-- The top-level loop of `Ingredient::parse_pairs` (lines 254–294): a
`multipart_quantity` node is folded by `mpLoop`; an `ingredient` node's
span becomes the ingredient name, with a leading `"of "` stripped. -/
def ppLoop : List PTree → Ingredient → Except PError Ingredient
  | [], ing => .ok ing
  | c :: rest, ing =>
      match c.rule with
      | .multipart_quantity =>
          match mpLoop c.children ing with
          | .error e => .error e
          | .ok ing2 => ppLoop rest ing2
      | .ingredient =>
          let t := c.text
          let t2 := if "of ".data.isPrefixOf t then t.drop 3 else t
          ppLoop rest { ing with ingredient := some t2 }
      | _ => ppLoop rest ing

/-- `Ingredient::parse_pairs` of `src/lib.rs` (lines 249–296). -/
def Ingredient.parse_pairs (pairs : List PTree) : Except PError Ingredient :=
  ppLoop pairs { quantities := [], ingredient := none }

/-- `Ingredient::parse` of `src/lib.rs` (lines 244–246): run the grammar
engine, then the extractor.  The modelled grammar is total on its input
(its `ingredient` rule accepts any remaining text), so the
`PestParseError` path of the source is never taken in the model. -/
def Ingredient.parse (s : String) : Except PError Ingredient :=
  Ingredient.parse_pairs (parseTrees s.data)

/-! ### Specification predicates -/

/-- The non-negative values: every actual rational that is `≥ 0`, both
special non-numbers, and `+inf`. -/
def FVal.NN : FVal → Prop
  | num q => 0 ≤ q
  | posInf => True
  | negInf => False
  | nan => True

/-- Extraction of this node as a fraction neither panics nor produces a
negative value. -/
def FracInnerOK (p : PTree) : Prop :=
  (∀ m, parse_fraction p ≠ .error (.panicked m)) ∧
  (∀ v, parse_fraction p = .ok v → v.isNeg = false)

/-- Extraction of this node as an amount neither panics nor produces a
negative value. -/
def AmountOK (p : PTree) : Prop :=
  (∀ m, parse_amount p ≠ .error (.panicked m)) ∧
  (∀ v, parse_amount p = .ok v → v.isNeg = false)

/-- A child of a `mixed_number` node that its summation loop can accept. -/
def MixedItemOK (c : PTree) : Prop :=
  c.rule = .separator ∨
  (c.rule = .integer ∧ ∀ q, parseF64? c.text = some q → (FVal.num q).isNeg = false) ∨
  (c.rule = .fraction ∧ ∀ inner ∈ c.children.head?, FracInnerOK inner)

/-- Both unit fields are present, or both are absent. -/
def UnitIff (q : Quantity) : Prop := q.unit.isSome = q.unit_type.isSome

/-- Trees whose extraction by `Quantity::parse` cannot panic or produce a
negative amount: every `amount` child extracts safely, and every
parenthesized quantity has the two children the extractor unwraps
(`c.children.tail.head?` is its second child), the second itself good. -/
inductive GoodChoice : PTree → Prop where
  | mk (r : Rule) (t : RStr) (cs : List PTree)
      (hAm : ∀ c ∈ cs, c.rule = Rule.amount →
        ∀ inner ∈ c.children.head?, AmountOK inner)
      (hParShape : ∀ c ∈ cs, c.rule = Rule.parenthesized_quantity →
        (c.children.tail.head?).isSome = true)
      (hParGood : ∀ c ∈ cs, c.rule = Rule.parenthesized_quantity →
        ∀ second ∈ c.children.tail.head?, GoodChoice second) :
      GoodChoice (PTree.node r t cs)

/-- A fragment's inner node that `fragToQuantity` can process safely. -/
def GoodQF (qf : PTree) : Prop :=
  (qf.rule = Rule.amount → ∀ inner ∈ qf.children.head?, AmountOK inner) ∧
  (qf.rule = Rule.quantity → ∀ inner ∈ qf.children.head?, GoodChoice inner)

/-- A `quantity_fragment` node whose extraction is safe. -/
def GoodFrag (f : PTree) : Prop := ∀ qf ∈ f.children.head?, GoodQF qf

/-- A top-level node the extractor can fold safely. -/
def TopOK (t : PTree) : Prop :=
  t.rule = Rule.multipart_quantity → ∀ c ∈ t.children, GoodFrag c

/-- A parse result is a modelled Rust panic. -/
def isPanicRes {α : Type} : Except PError α → Bool
  | .error (.panicked _) => true
  | _ => false

/-! ### Basic lemmas about the data model -/

@[simp]
theorem PTree.rule_node (r : Rule) (t : RStr) (cs : List PTree) :
    (PTree.node r t cs).rule = r := rfl

@[simp]
theorem PTree.text_node (r : Rule) (t : RStr) (cs : List PTree) :
    (PTree.node r t cs).text = t := rfl

@[simp]
theorem PTree.children_node (r : Rule) (t : RStr) (cs : List PTree) :
    (PTree.node r t cs).children = cs := rfl

@[simp]
theorem PTree.size_node (r : Rule) (t : RStr) (cs : List PTree) :
    PTree.size (PTree.node r t cs) = 1 + PTree.sizeL cs := by
  rw [PTree.size]

@[simp]
theorem PTree.sizeL_nil : PTree.sizeL [] = 0 := by rw [PTree.sizeL]

@[simp]
theorem PTree.sizeL_cons (c : PTree) (rest : List PTree) :
    PTree.sizeL (c :: rest) = PTree.size c + PTree.sizeL rest := by
  rw [PTree.sizeL]

theorem PTree.size_pos (p : PTree) : 0 < PTree.size p := by
  cases p with
  | node r t cs => simp

theorem PTree.size_le_sizeL {c : PTree} {cs : List PTree} (h : c ∈ cs) :
    PTree.size c ≤ PTree.sizeL cs := by
  induction cs with
  | nil => cases h
  | cons a rest ih =>
      rcases List.mem_cons.mp h with h1 | h2
      · subst h1; simp
      · have := ih h2; simp; omega

theorem PTree.sizeL_children_lt (c : PTree) :
    PTree.sizeL c.children < PTree.size c := by
  cases c with
  | node r t cs => simp

theorem FVal.isNeg_false_iff : ∀ {a : FVal}, a.isNeg = false ↔ a.NN := by
  intro a
  cases a <;> simp [FVal.isNeg, FVal.NN, decide_eq_false_iff_not, not_lt]

theorem FVal.mul_NN : ∀ {a b : FVal}, a.NN → b.NN → (a.mul b).NN := by
  intro a b ha hb
  cases a <;> cases b <;> simp only [FVal.NN, FVal.mul] at ha hb ⊢ <;>
    first
      | trivial
      | exact mul_nonneg ha hb
      | (split_ifs with h1 h2 <;>
          simp only [FVal.NN] <;>
          first
            | trivial
            | exact h2 (lt_of_le_of_ne ha (Ne.symm h1))
            | exact h2 (lt_of_le_of_ne hb (Ne.symm h1)))

/-- A negative value can't come out of two non-negative factors. -/
theorem FVal.mul_not_neg {a b : FVal} (ha : a.isNeg = false) (hb : b.isNeg = false) :
    (a.mul b).isNeg = false :=
  FVal.isNeg_false_iff.mpr
    (FVal.mul_NN (FVal.isNeg_false_iff.mp ha) (FVal.isNeg_false_iff.mp hb))

theorem FVal.add_NN : ∀ {a b : FVal}, a.NN → b.NN → (a.add b).NN := by
  intro a b ha hb
  cases a <;> cases b <;> simp only [FVal.NN, FVal.add] at ha hb ⊢ <;>
    first
      | trivial
      | exact add_nonneg ha hb

/-- Addition of non-negative values is non-negative. -/
theorem FVal.add_not_neg {a b : FVal} (ha : a.isNeg = false) (hb : b.isNeg = false) :
    (a.add b).isNeg = false :=
  FVal.isNeg_false_iff.mpr
    (FVal.add_NN (FVal.isNeg_false_iff.mp ha) (FVal.isNeg_false_iff.mp hb))

theorem FVal.div_NN : ∀ {a b : FVal}, a.NN → b.NN → (FVal.div a b).NN := by
  intro a b ha hb
  cases a <;> cases b <;> simp only [FVal.NN, FVal.div] at ha hb ⊢ <;>
    first
      | trivial
      | (split_ifs with h1 h2 h3 <;>
          simp only [FVal.NN] <;>
          first
            | trivial
            | exact h3 (lt_of_le_of_ne ha (Ne.symm h2))
            | exact h1 hb
            | exact div_nonneg ha hb)

/-- Division of non-negative values never produces a negative value (it
can produce `posInf` or `nan`). -/
theorem FVal.div_not_neg {a b : FVal} (ha : a.isNeg = false) (hb : b.isNeg = false) :
    (FVal.div a b).isNeg = false :=
  FVal.isNeg_false_iff.mpr
    (FVal.div_NN (FVal.isNeg_false_iff.mp ha) (FVal.isNeg_false_iff.mp hb))

@[simp]
theorem dfltQ_amount_not_neg : dfltQ.amount.isNeg = false := by
  simp [dfltQ, FVal.isNeg]

/-! ### Digit strings and `parseF64?` -/

theorem takeWhile_all {p : Char → Bool} {l : RStr} (h : ∀ c ∈ l, p c = true) :
    l.takeWhile p = l :=
  List.takeWhile_eq_self_iff.mpr h

theorem dropWhile_all {p : Char → Bool} {l : RStr} (h : ∀ c ∈ l, p c = true) :
    l.dropWhile p = [] :=
  List.dropWhile_eq_nil_iff.mpr (fun c hc => h c hc)

theorem takeWhile_append_stop {p : Char → Bool} {x : Char} (b : RStr) (hx : p x = false) :
    ∀ {a : RStr}, (∀ c ∈ a, p c = true) → (a ++ x :: b).takeWhile p = a := by
  intro a h
  induction a with
  | nil => simp [List.takeWhile, hx]
  | cons c rest ih =>
      have hc := h c (List.mem_cons_self _ _)
      simp [List.takeWhile, hc]
      exact ih (fun d hd => h d (List.mem_cons_of_mem _ hd))

theorem dropWhile_append_stop {p : Char → Bool} {x : Char} (b : RStr) (hx : p x = false) :
    ∀ {a : RStr}, (∀ c ∈ a, p c = true) → (a ++ x :: b).dropWhile p = x :: b := by
  intro a h
  induction a with
  | nil => simp [List.dropWhile, hx]
  | cons c rest ih =>
      have hc := h c (List.mem_cons_self _ _)
      simp [List.dropWhile, hc]
      exact ih (fun d hd => h d (List.mem_cons_of_mem _ hd))

theorem digit_ne_minus {c : Char} (h : c.isDigit = true) : c ≠ '-' := by
  intro he; subst he; simp [Char.isDigit] at h

theorem digit_ne_plus {c : Char} (h : c.isDigit = true) : c ≠ '+' := by
  intro he; subst he; simp [Char.isDigit] at h

theorem digit_ne_slash {c : Char} (h : c.isDigit = true) : c ≠ '/' := by
  intro he; subst he; simp [Char.isDigit] at h

/-- An all-digit, non-empty span parses as an unsigned float, hence a
non-negative rational. -/
theorem parseUnsignedF64?_digits {ds : RStr} (hne : ds ≠ [])
    (hd : ∀ c ∈ ds, c.isDigit = true) :
    ∃ q, parseUnsignedF64? ds = some q ∧ 0 ≤ q := by
  refine ⟨((digitsVal ds 0 : ℕ) : ℚ), ?_, by positivity⟩
  unfold parseUnsignedF64?
  rw [takeWhile_all hd, dropWhile_all hd]
  simp [List.isEmpty_iff, hne]

theorem parseF64?_digits {ds : RStr} (hne : ds ≠ [])
    (hd : ∀ c ∈ ds, c.isDigit = true) :
    ∃ q, parseF64? ds = some q ∧ 0 ≤ q := by
  obtain ⟨q, hq, hq0⟩ := parseUnsignedF64?_digits hne hd
  cases ds with
  | nil => exact absurd rfl hne
  | cons c rest =>
      have hc := hd c (List.mem_cons_self _ _)
      refine ⟨q, ?_, hq0⟩
      simp only [parseF64?]
      rw [if_neg (digit_ne_minus hc), if_neg (digit_ne_plus hc)]
      exact hq

/-- A float span `digits "." digits` parses as a non-negative rational. -/
theorem parseF64?_float {intd frac : RStr}
    (hi : ∀ c ∈ intd, c.isDigit = true) (hfne : frac ≠ [])
    (hf : ∀ c ∈ frac, c.isDigit = true) :
    ∃ q, parseF64? (intd ++ '.' :: frac) = some q ∧ 0 ≤ q := by
  have hdot : ('.' : Char).isDigit = false := by decide
  have hun : ∃ q, parseUnsignedF64? (intd ++ '.' :: frac) = some q ∧ 0 ≤ q := by
    refine ⟨((digitsVal intd 0 : ℕ) : ℚ) + ((digitsVal frac 0 : ℕ) : ℚ) / ((10 : ℚ) ^ frac.length),
            ?_, by positivity⟩
    unfold parseUnsignedF64?
    rw [takeWhile_append_stop _ hdot hi, dropWhile_append_stop _ hdot hi]
    have hall : frac.all Char.isDigit = true := List.all_eq_true.mpr hf
    simp only [hall, if_true]
    rw [if_neg]
    simp [List.isEmpty_iff, hfne]
  obtain ⟨q, hq, hq0⟩ := hun
  refine ⟨q, ?_, hq0⟩
  cases intd with
  | nil =>
      simp only [List.nil_append, parseF64?]
      rw [if_neg (by decide), if_neg (by decide)]
      exact hq
  | cons c rest =>
      have hc := hi c (List.mem_cons_self _ _)
      simp only [List.cons_append, parseF64?]
      rw [if_neg (digit_ne_minus hc), if_neg (digit_ne_plus hc)]
      simpa using hq

/-! ### `splitOnSlash` and the fraction span -/

theorem splitOnSlash_no_slash :
    ∀ {b : RStr}, (∀ c ∈ b, c ≠ '/') → splitOnSlash b = [b] := by
  intro b h
  induction b with
  | nil => rfl
  | cons c rest ih =>
      have hc := h c (List.mem_cons_self _ _)
      have ih' := ih (fun d hd => h d (List.mem_cons_of_mem _ hd))
      rw [splitOnSlash]
      rw [if_neg hc, ih']

theorem splitOnSlash_append {a b : RStr} (ha : ∀ c ∈ a, c ≠ '/') :
    splitOnSlash (a ++ '/' :: b) = a :: splitOnSlash b := by
  induction a with
  | nil =>
      simp only [List.nil_append]
      rw [splitOnSlash]
      simp
  | cons c rest ih =>
      have hc := ha c (List.mem_cons_self _ _)
      have ih' := ih (fun d hd => ha d (List.mem_cons_of_mem _ hd))
      simp only [List.cons_append]
      rw [splitOnSlash, if_neg hc, ih']

/-- The span of a grammar-produced multicharacter fraction splits into
exactly its two digit groups. -/
theorem splitOnSlash_fraction {nm dn : RStr}
    (hn : ∀ c ∈ nm, c.isDigit = true) (hd : ∀ c ∈ dn, c.isDigit = true) :
    splitOnSlash (nm ++ '/' :: dn) = [nm, dn] := by
  rw [splitOnSlash_append (fun c hc => digit_ne_slash (hn c hc)),
      splitOnSlash_no_slash (fun c hc => digit_ne_slash (hd c hc))]

/-- Extraction of a grammar-produced multicharacter fraction succeeds and
is non-negative (possibly `posInf`/`nan` when the denominator is the
digit string `0`). -/
theorem parse_multicharacter_fraction_ok {nm dn : RStr}
    (hnne : nm ≠ []) (hn : ∀ c ∈ nm, c.isDigit = true)
    (hdne : dn ≠ []) (hd : ∀ c ∈ dn, c.isDigit = true) :
    ∃ a b : ℚ, parse_multicharacter_fraction (nm ++ '/' :: dn) =
        .ok (FVal.div (.num a) (.num b)) ∧ 0 ≤ a ∧ 0 ≤ b := by
  obtain ⟨a, hqa, ha0⟩ := parseF64?_digits hnne hn
  obtain ⟨b, hqb, hb0⟩ := parseF64?_digits hdne hd
  refine ⟨a, b, ?_, ha0, hb0⟩
  unfold parse_multicharacter_fraction
  rw [splitOnSlash_fraction hn hd]
  rw [collectF64, hqa, collectF64, hqb, collectF64]

/-! ### Lexical-table facts -/

theorem FVal.num_not_neg {q : ℚ} (h : 0 ≤ q) : (FVal.num q).isNeg = false := by
  simp [FVal.isNeg, decide_eq_false_iff_not, not_lt, h]

theorem number_tbl_all :
    (numberWordKeys.all (fun w =>
      match lookupTable NUMBER_VALUE (rstrTrim w) with
      | some v => !(decide (v < 0))
      | none => false)) = true := by
  with_unfolding_all rfl

theorem number_lookup_ok {w : RStr} (hw : w ∈ numberWordKeys) :
    ∃ v, lookupTable NUMBER_VALUE (rstrTrim w) = some v ∧ (FVal.num v).isNeg = false := by
  have hall := List.all_eq_true.mp number_tbl_all w hw
  rcases hvw : lookupTable NUMBER_VALUE (rstrTrim w) with _ | v
  · rw [hvw] at hall; simp at hall
  · refine ⟨v, rfl, ?_⟩
    rw [hvw] at hall
    simpa [FVal.isNeg] using hall

theorem unicode_vals_ok :
    (UNICODE_FRACTION_VALUE.all (fun e => !(decide (e.2 < 0)))) = true := by
  with_unfolding_all rfl

theorem unicode_lookup_ok {c : Char}
    (hc : UNICODE_FRACTION_VALUE.any (fun e => e.1 == [c]) = true) :
    ∃ v, lookupTable UNICODE_FRACTION_VALUE [c] = some v ∧ (FVal.num v).isNeg = false := by
  obtain ⟨e, he, hee⟩ := List.any_eq_true.mp hc
  have hsome : (UNICODE_FRACTION_VALUE.find? (fun e => e.1 == [c])).isSome :=
    List.find?_isSome.mpr ⟨e, he, hee⟩
  rcases hf : UNICODE_FRACTION_VALUE.find? (fun e => e.1 == [c]) with _ | e2
  · rw [hf] at hsome; simp at hsome
  · have hmem := List.mem_of_find?_eq_some hf
    have hval := List.all_eq_true.mp unicode_vals_ok _ hmem
    refine ⟨e2.2, ?_, ?_⟩
    · simp [lookupTable, hf]
    · simpa [FVal.isNeg] using hval

/-! ### Panic-freedom and sign of the numeric extractors -/

theorem fracInnerOK_multi {nm dn : RStr}
    (hnne : nm ≠ []) (hn : ∀ c ∈ nm, c.isDigit = true)
    (hdne : dn ≠ []) (hd : ∀ c ∈ dn, c.isDigit = true) :
    FracInnerOK (PTree.node .multicharacter_fraction (nm ++ '/' :: dn) []) := by
  obtain ⟨a, b, hok, ha0, hb0⟩ := parse_multicharacter_fraction_ok hnne hn hdne hd
  constructor
  · intro m hcon
    simp only [parse_fraction, PTree.rule_node, PTree.text_node, hok] at hcon
    exact Except.noConfusion hcon
  · intro v hv
    simp only [parse_fraction, PTree.rule_node, PTree.text_node, hok,
      Except.ok.injEq] at hv
    subst hv
    exact FVal.div_not_neg (FVal.num_not_neg ha0) (FVal.num_not_neg hb0)

theorem fracInnerOK_unicode {c : Char}
    (hc : UNICODE_FRACTION_VALUE.any (fun e => e.1 == [c]) = true) :
    FracInnerOK (PTree.node .unicode_fraction [c] []) := by
  obtain ⟨v, hv, hv0⟩ := unicode_lookup_ok hc
  constructor
  · intro m hcon
    simp only [parse_fraction, PTree.rule_node, PTree.text_node, hv] at hcon
    exact Except.noConfusion hcon
  · intro w hw
    simp only [parse_fraction, PTree.rule_node, PTree.text_node, hv,
      Except.ok.injEq] at hw
    subst hw
    exact hv0

theorem amountOK_integer {ds : RStr}
    (h : ∀ q, parseF64? ds = some q → (FVal.num q).isNeg = false) :
    AmountOK (PTree.node .integer ds []) := by
  constructor
  · intro m hcon
    rcases hq : parseF64? ds with _ | q
    · simp only [parse_amount, PTree.rule_node, PTree.text_node, hq,
        Except.error.injEq] at hcon
      exact PError.noConfusion hcon
    · simp only [parse_amount, PTree.rule_node, PTree.text_node, hq] at hcon
      exact Except.noConfusion hcon
  · intro v hv
    rcases hq : parseF64? ds with _ | q
    · simp only [parse_amount, PTree.rule_node, PTree.text_node, hq] at hv
      exact Except.noConfusion hv
    · simp only [parse_amount, PTree.rule_node, PTree.text_node, hq,
        Except.ok.injEq] at hv
      subst hv
      exact h q hq

theorem amountOK_float {ds : RStr}
    (h : ∀ q, parseF64? ds = some q → (FVal.num q).isNeg = false) :
    AmountOK (PTree.node .float ds []) := by
  constructor
  · intro m hcon
    rcases hq : parseF64? ds with _ | q
    · simp only [parse_amount, PTree.rule_node, PTree.text_node, hq,
        Except.error.injEq] at hcon
      exact PError.noConfusion hcon
    · simp only [parse_amount, PTree.rule_node, PTree.text_node, hq] at hcon
      exact Except.noConfusion hcon
  · intro v hv
    rcases hq : parseF64? ds with _ | q
    · simp only [parse_amount, PTree.rule_node, PTree.text_node, hq] at hv
      exact Except.noConfusion hv
    · simp only [parse_amount, PTree.rule_node, PTree.text_node, hq,
        Except.ok.injEq] at hv
      subst hv
      exact h q hq

theorem amountOK_fraction {txt : RStr} {inner : PTree} {rest2 : List PTree}
    (h : FracInnerOK inner) :
    AmountOK (PTree.node .fraction txt (inner :: rest2)) := by
  constructor
  · intro m hcon
    simp only [parse_amount, PTree.rule_node, get_next_inner_pair,
      PTree.children_node] at hcon
    exact h.1 m hcon
  · intro v hv
    simp only [parse_amount, PTree.rule_node, get_next_inner_pair,
      PTree.children_node] at hv
    exact h.2 v hv

theorem amountOK_number {w : RStr} {rest2 : List PTree}
    (hw : w ∈ numberWordKeys) :
    AmountOK (PTree.node .number w (PTree.node .word w [] :: rest2)) := by
  obtain ⟨v, hv, hv0⟩ := number_lookup_ok hw
  constructor
  · intro m hcon
    simp only [parse_amount, PTree.rule_node, get_next_inner_pair,
      PTree.children_node, PTree.text_node, hv] at hcon
    exact Except.noConfusion hcon
  · intro u hu
    simp only [parse_amount, PTree.rule_node, get_next_inner_pair,
      PTree.children_node, PTree.text_node, hv, Except.ok.injEq] at hu
    subst hu
    exact hv0

theorem mixedSum_ok : ∀ (cs : List PTree) (acc : FVal),
    (∀ c ∈ cs, MixedItemOK c) → acc.isNeg = false →
    (∀ m, mixedSum cs acc ≠ .error (.panicked m)) ∧
    (∀ v, mixedSum cs acc = .ok v → v.isNeg = false) := by
  intro cs
  induction cs with
  | nil =>
      intro acc _ hacc
      constructor
      · intro m hcon; rw [mixedSum] at hcon; exact Except.noConfusion hcon
      · intro v hv; rw [mixedSum] at hv; cases hv; exact hacc
  | cons c rest ih =>
      intro acc hall hacc
      have hc := hall c (List.mem_cons_self _ _)
      have hrest := fun d hd => hall d (List.mem_cons_of_mem _ hd)
      rcases hc with hsep | ⟨hint, hq⟩ | ⟨hfr, hfi⟩
      · simp only [mixedSum, hsep]
        exact ih acc hrest hacc
      · rcases hpq : parseF64? c.text with _ | q
        · simp only [mixedSum, hint, hpq]
          exact ih acc hrest hacc
        · simp only [mixedSum, hint, hpq]
          exact ih _ hrest (FVal.add_not_neg hacc (hq q hpq))
      · rcases hch : c.children.head? with _ | inner
        · simp only [mixedSum, hfr, hch]
          exact ih acc hrest hacc
        · have hfi' := hfi inner (Option.mem_def.mpr hch)
          rcases hpf : parse_fraction inner with e | v
          · rcases e with e | m2
            · simp only [mixedSum, hfr, hch, hpf]
              exact ih acc hrest hacc
            · exact absurd hpf (hfi'.1 m2)
          · simp only [mixedSum, hfr, hch, hpf]
            exact ih _ hrest (FVal.add_not_neg hacc (hfi'.2 v hpf))

theorem amountOK_mixed {t : RStr} {cs : List PTree}
    (h : ∀ c ∈ cs, MixedItemOK c) :
    AmountOK (PTree.node .mixed_number t cs) := by
  have hs := mixedSum_ok cs (.num 0) h (by simp [FVal.isNeg])
  constructor
  · intro m hcon
    rw [parse_amount] at hcon
    simp only [PTree.rule_node, PTree.children_node] at hcon
    exact hs.1 m hcon
  · intro v hv
    rw [parse_amount] at hv
    simp only [PTree.rule_node, PTree.children_node] at hv
    exact hs.2 v hv

/-! ### `Quantity::parse` can neither panic nor produce a negative
amount on well-shaped trees, and always couples `unit` with `unit_type` -/

theorem err_ne_panick {α : Type} (e : IngreedyError) (m : RStr) :
    (Except.error (PError.err e) : Except PError α) ≠ Except.error (PError.panicked m) := by
  intro h
  injection h with h2
  exact PError.noConfusion h2

theorem gnip_no_panick (p : PTree) (m : RStr) :
    get_next_inner_pair p ≠ .error (.panicked m) := by
  rw [get_next_inner_pair]
  cases p.children <;> simp

theorem gnip_ok_mem {p inner : PTree} (h : get_next_inner_pair p = .ok inner) :
    inner ∈ p.children.head? := by
  rcases hch : p.children with _ | ⟨a, rest⟩ <;> rw [get_next_inner_pair, hch] at h
  · exact Except.noConfusion h
  · injection h with h2
    subst h2
    simp [hch]

theorem UnitType_parse_no_panick (u : PTree) (m : RStr) :
    UnitType.parse u ≠ .error (.panicked m) := by
  cases hru : u.rule <;> simp [UnitType.parse, hru]

theorem dfltQ_unitIff : UnitIff dfltQ := rfl

theorem convLoop_good : ∀ (cs : List PTree) (q0 : Quantity),
    (∀ c ∈ cs, c.rule = Rule.amount → ∀ inner ∈ c.children.head?, AmountOK inner) →
    q0.amount.isNeg = false →
    (∀ m, convLoop cs q0 ≠ .error (.panicked m)) ∧
    (∀ q, convLoop cs q0 = .ok q → q.amount.isNeg = false) := by
  intro cs
  induction cs with
  | nil =>
      intro q0 _ h0
      constructor
      · intro m hcon; rw [convLoop] at hcon; exact Except.noConfusion hcon
      · intro q hq; rw [convLoop] at hq; cases hq; exact h0
  | cons c rest ih =>
      intro q0 hAm h0
      have hrest : ∀ d ∈ rest, d.rule = Rule.amount →
          ∀ inner ∈ d.children.head?, AmountOK inner :=
        fun d hd => hAm d (List.mem_cons_of_mem _ hd)
      cases hcr : c.rule
      case amount =>
        rcases hg1 : get_next_inner_pair c with e | inner
        · rcases e with e | m2
          · constructor
            · intro m hcon
              simp only [convLoop, hcr, hg1] at hcon
              exact err_ne_panick e m hcon
            · intro q hq
              simp only [convLoop, hcr, hg1] at hq
              exact Except.noConfusion hq
          · exact absurd hg1 (gnip_no_panick c m2)
        · have hAOK := hAm c (List.mem_cons_self _ _) hcr inner (gnip_ok_mem hg1)
          rcases hpa : parse_amount inner with e | v
          · rcases e with e | m2
            · constructor
              · intro m hcon
                simp only [convLoop, hcr, hg1, hpa] at hcon
                exact err_ne_panick e m hcon
              · intro q hq
                simp only [convLoop, hcr, hg1, hpa] at hq
                exact Except.noConfusion hq
            · exact absurd hpa (hAOK.1 m2)
          · have hv0 := hAOK.2 v hpa
            have hres := ih { q0 with amount := v } hrest hv0
            constructor
            · intro m hcon
              simp only [convLoop, hcr, hg1, hpa] at hcon
              exact hres.1 m hcon
            · intro q hq
              simp only [convLoop, hcr, hg1, hpa] at hq
              exact hres.2 q hq
      case unit =>
        rcases hg1 : get_next_inner_pair c with e | u
        · rcases e with e | m2
          · constructor
            · intro m hcon
              simp only [convLoop, hcr, hg1] at hcon
              exact err_ne_panick e m hcon
            · intro q hq
              simp only [convLoop, hcr, hg1] at hq
              exact Except.noConfusion hq
          · exact absurd hg1 (gnip_no_panick c m2)
        · rcases hut : UnitType.parse u with e | ut
          · rcases e with e | m2
            · constructor
              · intro m hcon
                simp only [convLoop, hcr, hg1, hut] at hcon
                exact err_ne_panick e m hcon
              · intro q hq
                simp only [convLoop, hcr, hg1, hut] at hq
                exact Except.noConfusion hq
            · exact absurd hut (UnitType_parse_no_panick u m2)
          · rcases hg2 : get_next_inner_pair u with e | nm
            · rcases e with e | m2
              · constructor
                · intro m hcon
                  simp only [convLoop, hcr, hg1, hut, hg2] at hcon
                  exact err_ne_panick e m hcon
                · intro q hq
                  simp only [convLoop, hcr, hg1, hut, hg2] at hq
                  exact Except.noConfusion hq
              · exact absurd hg2 (gnip_no_panick u m2)
            · have hres := ih { q0 with unit := some nm.rule.name, unit_type := some ut }
                hrest h0
              constructor
              · intro m hcon
                simp only [convLoop, hcr, hg1, hut, hg2] at hcon
                exact hres.1 m hcon
              · intro q hq
                simp only [convLoop, hcr, hg1, hut, hg2] at hq
                exact hres.2 q hq
      all_goals
        simp only [convLoop, hcr]
        exact ih q0 hrest h0

theorem convLoop_unitIff : ∀ (cs : List PTree) (q0 : Quantity),
    UnitIff q0 → ∀ q, convLoop cs q0 = .ok q → UnitIff q := by
  intro cs
  induction cs with
  | nil =>
      intro q0 h0 q hq
      rw [convLoop] at hq; cases hq; exact h0
  | cons c rest ih =>
      intro q0 h0 q hq
      cases hcr : c.rule
      case amount =>
        rcases hg1 : get_next_inner_pair c with e | inner
        · simp only [convLoop, hcr, hg1] at hq
          exact Except.noConfusion hq
        · rcases hpa : parse_amount inner with e | v
          · simp only [convLoop, hcr, hg1, hpa] at hq
            exact Except.noConfusion hq
          · simp only [convLoop, hcr, hg1, hpa] at hq
            exact ih { q0 with amount := v } h0 q hq
      case unit =>
        rcases hg1 : get_next_inner_pair c with e | u
        · simp only [convLoop, hcr, hg1] at hq
          exact Except.noConfusion hq
        · rcases hut : UnitType.parse u with e | ut
          · simp only [convLoop, hcr, hg1, hut] at hq
            exact Except.noConfusion hq
          · rcases hg2 : get_next_inner_pair u with e | nm
            · simp only [convLoop, hcr, hg1, hut, hg2] at hq
              exact Except.noConfusion hq
            · simp only [convLoop, hcr, hg1, hut, hg2] at hq
              exact ih { q0 with unit := some nm.rule.name, unit_type := some ut }
                rfl q hq
      all_goals
        simp only [convLoop, hcr] at hq
        exact ih q0 h0 q hq

theorem mulLoopGen_good (recQ : PTree → Except PError Quantity) (B : ℕ)
    (hrec : ∀ t, PTree.size t < B → GoodChoice t →
      (∀ m, recQ t ≠ .error (.panicked m)) ∧
      (∀ q, recQ t = .ok q → q.amount.isNeg = false)) :
    ∀ (cs : List PTree) (mult : FVal) (q0 : Quantity),
    (∀ c ∈ cs, c.rule = Rule.amount → ∀ inner ∈ c.children.head?, AmountOK inner) →
    (∀ c ∈ cs, c.rule = Rule.parenthesized_quantity →
      (c.children.tail.head?).isSome = true) →
    (∀ c ∈ cs, c.rule = Rule.parenthesized_quantity →
      ∀ second ∈ c.children.tail.head?, GoodChoice second) →
    PTree.sizeL cs ≤ B →
    mult.isNeg = false → q0.amount.isNeg = false →
    (∀ m, mulLoopGen recQ cs mult q0 ≠ .error (.panicked m)) ∧
    (∀ q, mulLoopGen recQ cs mult q0 = .ok q → q.amount.isNeg = false) := by
  intro cs
  induction cs with
  | nil =>
      intro mult q0 _ _ _ _ _ h0
      constructor
      · intro m hcon; rw [mulLoopGen] at hcon; exact Except.noConfusion hcon
      · intro q hq; rw [mulLoopGen] at hq; cases hq; exact h0
  | cons c rest ih =>
      intro mult q0 hAm hPS hPG hB hm h0
      have hArest := fun d hd => hAm d (List.mem_cons_of_mem _ hd)
      have hPSrest := fun d hd => hPS d (List.mem_cons_of_mem _ hd)
      have hPGrest := fun d hd => hPG d (List.mem_cons_of_mem _ hd)
      have hBrest : PTree.sizeL rest ≤ B := by
        have := PTree.size_pos c
        simp only [PTree.sizeL_cons] at hB
        omega
      cases hcr : c.rule
      case amount =>
        rcases hg1 : get_next_inner_pair c with e | inner
        · rcases e with e | m2
          · constructor
            · intro m hcon
              simp only [mulLoopGen, hcr, hg1] at hcon
              exact err_ne_panick e m hcon
            · intro q hq
              simp only [mulLoopGen, hcr, hg1] at hq
              exact Except.noConfusion hq
          · exact absurd hg1 (gnip_no_panick c m2)
        · have hAOK := hAm c (List.mem_cons_self _ _) hcr inner (gnip_ok_mem hg1)
          rcases hpa : parse_amount inner with e | v
          · rcases e with e | m2
            · constructor
              · intro m hcon
                simp only [mulLoopGen, hcr, hg1, hpa] at hcon
                exact err_ne_panick e m hcon
              · intro q hq
                simp only [mulLoopGen, hcr, hg1, hpa] at hq
                exact Except.noConfusion hq
            · exact absurd hpa (hAOK.1 m2)
          · have hv0 := hAOK.2 v hpa
            have hres := ih v q0 hArest hPSrest hPGrest hBrest hv0 h0
            constructor
            · intro m hcon
              simp only [mulLoopGen, hcr, hg1, hpa] at hcon
              exact hres.1 m hcon
            · intro q hq
              simp only [mulLoopGen, hcr, hg1, hpa] at hq
              exact hres.2 q hq
      case parenthesized_quantity =>
        have hshape := hPS c (List.mem_cons_self _ _) hcr
        rcases hch : c.children with _ | ⟨a, arest⟩
        · rw [hch] at hshape; simp at hshape
        · rcases arest with _ | ⟨second, rest2⟩
          · rw [hch] at hshape; simp at hshape
          · have hmem : second ∈ c.children.tail.head? := by
              rw [hch]; simp
            have hgood := hPG c (List.mem_cons_self _ _) hcr second hmem
            have hsz : PTree.size second < B := by
              have h1 : PTree.size second ≤ PTree.sizeL c.children := by
                rw [hch]
                simp only [PTree.sizeL_cons]
                omega
              have h2 := PTree.sizeL_children_lt c
              have h3 : PTree.size c ≤ PTree.sizeL (c :: rest) := by
                simp only [PTree.sizeL_cons]; omega
              omega
            have hrq := hrec second hsz hgood
            rcases hq2 : recQ second with e | q2
            · rcases e with e | m2
              · constructor
                · intro m hcon
                  simp only [mulLoopGen, hcr, hch, hq2] at hcon
                  exact err_ne_panick e m hcon
                · intro q hq
                  simp only [mulLoopGen, hcr, hch, hq2] at hq
                  exact Except.noConfusion hq
              · exact absurd hq2 (hrq.1 m2)
            · have hq20 := hrq.2 q2 hq2
              have hnew : ({ q2 with amount := q2.amount.mul mult } : Quantity).amount.isNeg
                  = false := FVal.mul_not_neg hq20 hm
              have hres := ih mult { q2 with amount := q2.amount.mul mult }
                hArest hPSrest hPGrest hBrest hm hnew
              constructor
              · intro m hcon
                simp only [mulLoopGen, hcr, hch, hq2] at hcon
                exact hres.1 m hcon
              · intro q hq
                simp only [mulLoopGen, hcr, hch, hq2] at hq
                exact hres.2 q hq
      all_goals
        simp only [mulLoopGen, hcr]
        exact ih mult q0 hArest hPSrest hPGrest hBrest hm h0

theorem mulLoopGen_unitIff (recQ : PTree → Except PError Quantity)
    (hrec : ∀ t q', recQ t = .ok q' → UnitIff q') :
    ∀ (cs : List PTree) (mult : FVal) (q0 : Quantity),
    UnitIff q0 → ∀ q, mulLoopGen recQ cs mult q0 = .ok q → UnitIff q := by
  intro cs
  induction cs with
  | nil =>
      intro mult q0 h0 q hq
      rw [mulLoopGen] at hq; cases hq; exact h0
  | cons c rest ih =>
      intro mult q0 h0 q hq
      cases hcr : c.rule
      case amount =>
        rcases hg1 : get_next_inner_pair c with e | inner
        · simp only [mulLoopGen, hcr, hg1] at hq
          exact Except.noConfusion hq
        · rcases hpa : parse_amount inner with e | v
          · simp only [mulLoopGen, hcr, hg1, hpa] at hq
            exact Except.noConfusion hq
          · simp only [mulLoopGen, hcr, hg1, hpa] at hq
            exact ih v q0 h0 q hq
      case parenthesized_quantity =>
        rcases hch : c.children with _ | ⟨a, arest⟩
        · simp only [mulLoopGen, hcr, hch] at hq
          exact Except.noConfusion hq
        · rcases arest with _ | ⟨second, rest2⟩
          · simp only [mulLoopGen, hcr, hch] at hq
            exact Except.noConfusion hq
          · rcases hq2 : recQ second with e | q2
            · simp only [mulLoopGen, hcr, hch, hq2] at hq
              exact Except.noConfusion hq
            · simp only [mulLoopGen, hcr, hch, hq2] at hq
              exact ih mult { q2 with amount := q2.amount.mul mult }
                (hrec second q2 hq2) q hq
      all_goals
        simp only [mulLoopGen, hcr] at hq
        exact ih mult q0 h0 q hq

theorem parseQ_good : ∀ (n : ℕ) (p : PTree), PTree.size p ≤ n → GoodChoice p →
    (∀ m, Quantity.parseQ n p ≠ .error (.panicked m)) ∧
    (∀ q, Quantity.parseQ n p = .ok q → q.amount.isNeg = false) := by
  intro n
  induction n with
  | zero =>
      intro p hsz _
      exact absurd hsz (by have := PTree.size_pos p; omega)
  | succ n ih =>
      intro p hsz hg
      rcases hg with ⟨r, t, cs, hAm, hPS, hPG⟩
      have hszcs : PTree.sizeL cs ≤ n := by
        simp only [PTree.size_node] at hsz; omega
      cases r
      case amount_with_conversion =>
        have hres := convLoop_good cs dfltQ hAm dfltQ_amount_not_neg
        constructor
        · intro m hcon
          simp only [Quantity.parseQ, PTree.rule_node, PTree.children_node] at hcon
          exact hres.1 m hcon
        · intro q hq
          simp only [Quantity.parseQ, PTree.rule_node, PTree.children_node] at hq
          exact hres.2 q hq
      case amount_with_attached_units =>
        have hres := convLoop_good cs dfltQ hAm dfltQ_amount_not_neg
        constructor
        · intro m hcon
          simp only [Quantity.parseQ, PTree.rule_node, PTree.children_node] at hcon
          exact hres.1 m hcon
        · intro q hq
          simp only [Quantity.parseQ, PTree.rule_node, PTree.children_node] at hq
          exact hres.2 q hq
      case amount_with_multiplier =>
        have hrec : ∀ u, PTree.size u < n → GoodChoice u →
            (∀ m, Quantity.parseQ n u ≠ .error (.panicked m)) ∧
            (∀ q, Quantity.parseQ n u = .ok q → q.amount.isNeg = false) :=
          fun u hu hgu => ih u (by omega) hgu
        have hres := mulLoopGen_good (Quantity.parseQ n) n hrec cs (.num 1) dfltQ
          hAm hPS hPG hszcs (FVal.num_not_neg (by norm_num)) dfltQ_amount_not_neg
        constructor
        · intro m hcon
          simp only [Quantity.parseQ, PTree.rule_node, PTree.children_node] at hcon
          exact hres.1 m hcon
        · intro q hq
          simp only [Quantity.parseQ, PTree.rule_node, PTree.children_node] at hq
          exact hres.2 q hq
      case amount_imprecise =>
        constructor
        · intro m hcon
          rcases hg1 : get_next_inner_pair (PTree.node .amount_imprecise t cs) with e | u
          · rcases e with e | m2
            · simp only [Quantity.parseQ, PTree.rule_node, hg1] at hcon
              exact err_ne_panick e m hcon
            · exact absurd hg1 (gnip_no_panick _ m2)
          · rcases hut : UnitType.parse u with e | ut
            · rcases e with e | m2
              · simp only [Quantity.parseQ, PTree.rule_node, hg1, hut] at hcon
                exact err_ne_panick e m hcon
              · exact absurd hut (UnitType_parse_no_panick u m2)
            · rcases hg2 : get_next_inner_pair u with e | nm
              · rcases e with e | m2
                · simp only [Quantity.parseQ, PTree.rule_node, hg1, hut, hg2] at hcon
                  exact err_ne_panick e m hcon
                · exact absurd hg2 (gnip_no_panick u m2)
              · simp only [Quantity.parseQ, PTree.rule_node, hg1, hut, hg2] at hcon
                exact Except.noConfusion hcon
        · intro q hq
          rcases hg1 : get_next_inner_pair (PTree.node .amount_imprecise t cs) with e | u
          · simp only [Quantity.parseQ, PTree.rule_node, hg1] at hq
            exact Except.noConfusion hq
          · rcases hut : UnitType.parse u with e | ut
            · simp only [Quantity.parseQ, PTree.rule_node, hg1, hut] at hq
              exact Except.noConfusion hq
            · rcases hg2 : get_next_inner_pair u with e | nm
              · simp only [Quantity.parseQ, PTree.rule_node, hg1, hut, hg2] at hq
                exact Except.noConfusion hq
              · simp only [Quantity.parseQ, PTree.rule_node, hg1, hut, hg2,
                  Except.ok.injEq] at hq
                subst hq
                exact FVal.num_not_neg (by norm_num)
      all_goals
        constructor
        · intro m hcon
          simp only [Quantity.parseQ, PTree.rule_node] at hcon
          exact err_ne_panick _ m hcon
        · intro q hq
          simp only [Quantity.parseQ, PTree.rule_node] at hq
          exact Except.noConfusion hq

theorem parseQ_unitIff : ∀ (n : ℕ) (p : PTree) (q : Quantity),
    Quantity.parseQ n p = .ok q → UnitIff q := by
  intro n
  induction n with
  | zero =>
      intro p q hq
      rw [Quantity.parseQ] at hq
      exact Except.noConfusion hq
  | succ n ih =>
      intro p q hq
      rcases p with ⟨r, t, cs⟩
      cases r
      case amount_with_conversion =>
        simp only [Quantity.parseQ, PTree.rule_node, PTree.children_node] at hq
        exact convLoop_unitIff cs dfltQ dfltQ_unitIff q hq
      case amount_with_attached_units =>
        simp only [Quantity.parseQ, PTree.rule_node, PTree.children_node] at hq
        exact convLoop_unitIff cs dfltQ dfltQ_unitIff q hq
      case amount_with_multiplier =>
        simp only [Quantity.parseQ, PTree.rule_node, PTree.children_node] at hq
        exact mulLoopGen_unitIff (Quantity.parseQ n) (fun u q' => ih u q')
          cs (.num 1) dfltQ dfltQ_unitIff q hq
      case amount_imprecise =>
        rcases hg1 : get_next_inner_pair (PTree.node .amount_imprecise t cs) with e | u
        · simp only [Quantity.parseQ, PTree.rule_node, hg1] at hq
          exact Except.noConfusion hq
        · rcases hut : UnitType.parse u with e | ut
          · simp only [Quantity.parseQ, PTree.rule_node, hg1, hut] at hq
            exact Except.noConfusion hq
          · rcases hg2 : get_next_inner_pair u with e | nm
            · simp only [Quantity.parseQ, PTree.rule_node, hg1, hut, hg2] at hq
              exact Except.noConfusion hq
            · simp only [Quantity.parseQ, PTree.rule_node, hg1, hut, hg2,
                Except.ok.injEq] at hq
              subst hq
              rfl
      all_goals
        simp only [Quantity.parseQ, PTree.rule_node] at hq
        exact Except.noConfusion hq

/-! ### The fragment loop and the top-level extractor -/

theorem head?_mem {α : Type} {l : List α} {a : α} (h : l.head? = some a) : a ∈ l := by
  cases l with
  | nil => exact Option.noConfusion h
  | cons b rest =>
      injection h with h2
      subst h2
      exact List.mem_cons_self _ _

theorem fragToQuantity_good {qf : PTree} (h : GoodQF qf) :
    (∀ m, fragToQuantity qf ≠ .error (.panicked m)) ∧
    (∀ q, fragToQuantity qf = .ok q → q.amount.isNeg = false) := by
  cases hcr : qf.rule
  case amount =>
    rcases hg1 : get_next_inner_pair qf with e | inner
    · rcases e with e | m2
      · constructor
        · intro m hcon
          simp only [fragToQuantity, hcr, hg1] at hcon
          exact err_ne_panick e m hcon
        · intro q hq
          simp only [fragToQuantity, hcr, hg1] at hq
          exact Except.noConfusion hq
      · exact absurd hg1 (gnip_no_panick qf m2)
    · have hAOK := h.1 hcr inner (gnip_ok_mem hg1)
      rcases hpa : parse_amount inner with e | v
      · rcases e with e | m2
        · constructor
          · intro m hcon
            simp only [fragToQuantity, hcr, hg1, hpa] at hcon
            exact err_ne_panick e m hcon
          · intro q hq
            simp only [fragToQuantity, hcr, hg1, hpa] at hq
            exact Except.noConfusion hq
        · exact absurd hpa (hAOK.1 m2)
      · constructor
        · intro m hcon
          simp only [fragToQuantity, hcr, hg1, hpa] at hcon
          exact Except.noConfusion hcon
        · intro q hq
          simp only [fragToQuantity, hcr, hg1, hpa, Except.ok.injEq] at hq
          subst hq
          exact hAOK.2 v hpa
  case quantity =>
    rcases hg1 : get_next_inner_pair qf with e | inner
    · rcases e with e | m2
      · constructor
        · intro m hcon
          simp only [fragToQuantity, hcr, hg1] at hcon
          exact err_ne_panick e m hcon
        · intro q hq
          simp only [fragToQuantity, hcr, hg1] at hq
          exact Except.noConfusion hq
      · exact absurd hg1 (gnip_no_panick qf m2)
    · have hgc := h.2 hcr inner (gnip_ok_mem hg1)
      have hres := parseQ_good (PTree.size inner) inner le_rfl hgc
      constructor
      · intro m hcon
        simp only [fragToQuantity, hcr, hg1, Quantity.parse] at hcon
        exact hres.1 m hcon
      · intro q hq
        simp only [fragToQuantity, hcr, hg1, Quantity.parse] at hq
        exact hres.2 q hq
  all_goals
    constructor
    · intro m hcon
      simp only [fragToQuantity, hcr] at hcon
      exact err_ne_panick _ m hcon
    · intro q hq
      simp only [fragToQuantity, hcr] at hq
      exact Except.noConfusion hq

theorem fragToQuantity_unitIff : ∀ {qf : PTree} {q : Quantity},
    fragToQuantity qf = .ok q → UnitIff q := by
  intro qf q hq
  cases hcr : qf.rule
  case amount =>
    rcases hg1 : get_next_inner_pair qf with e | inner
    · simp only [fragToQuantity, hcr, hg1] at hq
      exact Except.noConfusion hq
    · rcases hpa : parse_amount inner with e | v
      · simp only [fragToQuantity, hcr, hg1, hpa] at hq
        exact Except.noConfusion hq
      · simp only [fragToQuantity, hcr, hg1, hpa, Except.ok.injEq] at hq
        subst hq
        rfl
  case quantity =>
    rcases hg1 : get_next_inner_pair qf with e | inner
    · simp only [fragToQuantity, hcr, hg1] at hq
      exact Except.noConfusion hq
    · simp only [fragToQuantity, hcr, hg1, Quantity.parse] at hq
      exact parseQ_unitIff (PTree.size inner) inner q hq
  all_goals
    simp only [fragToQuantity, hcr] at hq
    exact Except.noConfusion hq

theorem mpLoop_good : ∀ (frags : List PTree) (ing : Ingredient),
    (∀ f ∈ frags, GoodFrag f) →
    (∀ q ∈ ing.quantities, q.amount.isNeg = false) →
    (∀ m, mpLoop frags ing ≠ .error (.panicked m)) ∧
    (∀ ing2, mpLoop frags ing = .ok ing2 →
      ∀ q ∈ ing2.quantities, q.amount.isNeg = false) := by
  intro frags
  induction frags with
  | nil =>
      intro ing _ h0
      constructor
      · intro m hcon; rw [mpLoop] at hcon; exact Except.noConfusion hcon
      · intro ing2 h; rw [mpLoop] at h; cases h; exact h0
  | cons c rest ih =>
      intro ing hall h0
      have hrest := fun d hd => hall d (List.mem_cons_of_mem _ hd)
      by_cases hcr : c.rule = Rule.quantity_fragment
      case neg =>
        constructor
        · intro m hcon
          rw [mpLoop, if_neg hcr] at hcon
          exact (ih ing hrest h0).1 m hcon
        · intro ing2 h
          rw [mpLoop, if_neg hcr] at h
          exact (ih ing hrest h0).2 ing2 h
      case pos =>
        rcases hg1 : get_next_inner_pair c with e | qf
        · rcases e with e | m2
          · constructor
            · intro m hcon
              rw [mpLoop, if_pos hcr] at hcon
              simp only [hg1] at hcon
              exact err_ne_panick e m hcon
            · intro ing2 h
              rw [mpLoop, if_pos hcr] at h
              simp only [hg1] at h
              exact Except.noConfusion h
          · exact absurd hg1 (gnip_no_panick c m2)
        · have hqf := hall c (List.mem_cons_self _ _) qf (gnip_ok_mem hg1)
          have hfg := fragToQuantity_good hqf
          rcases hfq : fragToQuantity qf with e | q
          · rcases e with e | m2
            · constructor
              · intro m hcon
                rw [mpLoop, if_pos hcr] at hcon
                simp only [hg1, hfq] at hcon
                exact err_ne_panick e m hcon
              · intro ing2 h
                rw [mpLoop, if_pos hcr] at h
                simp only [hg1, hfq] at h
                exact Except.noConfusion h
            · exact absurd hfq (hfg.1 m2)
          · have hqn := hfg.2 q hfq
            rcases hh : ing.quantities.head? with _ | q0
            · have hinv : ∀ q' ∈ ing.quantities ++ [q], q'.amount.isNeg = false := by
                intro q' hq'
                rcases List.mem_append.mp hq' with h1 | h1
                · exact h0 q' h1
                · rw [List.mem_singleton.mp h1]; exact hqn
              have hres := ih { ing with quantities := ing.quantities ++ [q] } hrest hinv
              constructor
              · intro m hcon
                rw [mpLoop, if_pos hcr] at hcon
                simp only [hg1, hfq, hh] at hcon
                exact hres.1 m hcon
              · intro ing2 h
                rw [mpLoop, if_pos hcr] at h
                simp only [hg1, hfq, hh] at h
                exact hres.2 ing2 h
            · have hq00 := h0 q0 (head?_mem hh)
              rcases hu : q0.unit with _ | u0
              · have hmn : ({ q with amount := q.amount.mul q0.amount } : Quantity).amount.isNeg
                    = false := FVal.mul_not_neg hqn hq00
                have hinv : ∀ q' ∈ [({ q with amount := q.amount.mul q0.amount } : Quantity)],
                    q'.amount.isNeg = false := by
                  intro q' hq'
                  rw [List.mem_singleton.mp hq']
                  exact hmn
                have hres := ih
                  { ing with quantities := [{ q with amount := q.amount.mul q0.amount }] }
                  hrest hinv
                constructor
                · intro m hcon
                  rw [mpLoop, if_pos hcr] at hcon
                  simp only [hg1, hfq, hh, hu, if_pos] at hcon
                  exact hres.1 m hcon
                · intro ing2 h
                  rw [mpLoop, if_pos hcr] at h
                  simp only [hg1, hfq, hh, hu, if_pos] at h
                  exact hres.2 ing2 h
              · have hinv : ∀ q' ∈ ing.quantities ++ [q], q'.amount.isNeg = false := by
                  intro q' hq'
                  rcases List.mem_append.mp hq' with h1 | h1
                  · exact h0 q' h1
                  · rw [List.mem_singleton.mp h1]; exact hqn
                have hres := ih { ing with quantities := ing.quantities ++ [q] } hrest hinv
                constructor
                · intro m hcon
                  rw [mpLoop, if_pos hcr] at hcon
                  simp only [hg1, hfq, hh, hu] at hcon
                  exact hres.1 m hcon
                · intro ing2 h
                  rw [mpLoop, if_pos hcr] at h
                  simp only [hg1, hfq, hh, hu] at h
                  exact hres.2 ing2 h

theorem mpLoop_unitIff : ∀ (frags : List PTree) (ing : Ingredient),
    (∀ q ∈ ing.quantities, UnitIff q) →
    ∀ ing2, mpLoop frags ing = .ok ing2 → ∀ q ∈ ing2.quantities, UnitIff q := by
  intro frags
  induction frags with
  | nil =>
      intro ing h0 ing2 h
      rw [mpLoop] at h; cases h; exact h0
  | cons c rest ih =>
      intro ing h0 ing2 h
      by_cases hcr : c.rule = Rule.quantity_fragment
      case neg =>
        rw [mpLoop, if_neg hcr] at h
        exact ih ing h0 ing2 h
      case pos =>
        rcases hg1 : get_next_inner_pair c with e | qf
        · rw [mpLoop, if_pos hcr] at h
          simp only [hg1] at h
          exact Except.noConfusion h
        · rcases hfq : fragToQuantity qf with e | q
          · rw [mpLoop, if_pos hcr] at h
            simp only [hg1, hfq] at h
            exact Except.noConfusion h
          · have hqU := fragToQuantity_unitIff hfq
            rcases hh : ing.quantities.head? with _ | q0
            · rw [mpLoop, if_pos hcr] at h
              simp only [hg1, hfq, hh] at h
              refine ih _ ?_ ing2 h
              intro q' hq'
              rcases List.mem_append.mp hq' with h1 | h1
              · exact h0 q' h1
              · rw [List.mem_singleton.mp h1]; exact hqU
            · rcases hu : q0.unit with _ | u0
              · rw [mpLoop, if_pos hcr] at h
                simp only [hg1, hfq, hh, hu, if_pos] at h
                refine ih _ ?_ ing2 h
                intro q' hq'
                rw [List.mem_singleton.mp hq']
                exact hqU
              · rw [mpLoop, if_pos hcr] at h
                simp only [hg1, hfq, hh, hu] at h
                refine ih _ ?_ ing2 h
                intro q' hq'
                rcases List.mem_append.mp hq' with h1 | h1
                · exact h0 q' h1
                · rw [List.mem_singleton.mp h1]; exact hqU

theorem ppLoop_good : ∀ (pairs : List PTree) (ing : Ingredient),
    (∀ t ∈ pairs, TopOK t) →
    (∀ q ∈ ing.quantities, q.amount.isNeg = false) →
    (∀ m, ppLoop pairs ing ≠ .error (.panicked m)) ∧
    (∀ ing2, ppLoop pairs ing = .ok ing2 →
      ∀ q ∈ ing2.quantities, q.amount.isNeg = false) := by
  intro pairs
  induction pairs with
  | nil =>
      intro ing _ h0
      constructor
      · intro m hcon; rw [ppLoop] at hcon; exact Except.noConfusion hcon
      · intro ing2 h; rw [ppLoop] at h; cases h; exact h0
  | cons c rest ih =>
      intro ing hall h0
      have hrest := fun d hd => hall d (List.mem_cons_of_mem _ hd)
      cases hcr : c.rule
      case multipart_quantity =>
        have hmp := mpLoop_good c.children ing (hall c (List.mem_cons_self _ _) hcr) h0
        rcases hres : mpLoop c.children ing with e | ing3
        · rcases e with e | m2
          · constructor
            · intro m hcon
              simp only [ppLoop, hcr, hres] at hcon
              exact err_ne_panick e m hcon
            · intro ing2 h
              simp only [ppLoop, hcr, hres] at h
              exact Except.noConfusion h
          · exact absurd hres (hmp.1 m2)
        · have h3 := hmp.2 ing3 hres
          have hnext := ih ing3 hrest h3
          constructor
          · intro m hcon
            simp only [ppLoop, hcr, hres] at hcon
            exact hnext.1 m hcon
          · intro ing2 h
            simp only [ppLoop, hcr, hres] at h
            exact hnext.2 ing2 h
      case ingredient =>
        have hnext := ih { ing with
          ingredient := some (if "of ".data.isPrefixOf c.text then c.text.drop 3 else c.text) }
          hrest h0
        constructor
        · intro m hcon
          simp only [ppLoop, hcr] at hcon
          exact hnext.1 m hcon
        · intro ing2 h
          simp only [ppLoop, hcr] at h
          exact hnext.2 ing2 h
      all_goals
        constructor
        · intro m hcon
          simp only [ppLoop, hcr] at hcon
          exact (ih ing hrest h0).1 m hcon
        · intro ing2 h
          simp only [ppLoop, hcr] at h
          exact (ih ing hrest h0).2 ing2 h

theorem ppLoop_unitIff : ∀ (pairs : List PTree) (ing : Ingredient),
    (∀ q ∈ ing.quantities, UnitIff q) →
    ∀ ing2, ppLoop pairs ing = .ok ing2 → ∀ q ∈ ing2.quantities, UnitIff q := by
  intro pairs
  induction pairs with
  | nil =>
      intro ing h0 ing2 h
      rw [ppLoop] at h; cases h; exact h0
  | cons c rest ih =>
      intro ing h0 ing2 h
      cases hcr : c.rule
      case multipart_quantity =>
        rcases hres : mpLoop c.children ing with e | ing3
        · simp only [ppLoop, hcr, hres] at h
          exact Except.noConfusion h
        · simp only [ppLoop, hcr, hres] at h
          exact ih ing3 (mpLoop_unitIff c.children ing h0 ing3 hres) ing2 h
      case ingredient =>
        simp only [ppLoop, hcr] at h
        exact ih { ing with
          ingredient := some (if "of ".data.isPrefixOf c.text then c.text.drop 3 else c.text) }
          h0 ing2 h
      all_goals
        simp only [ppLoop, hcr] at h
        exact ih ing h0 ing2 h

/-! ### Soundness of the grammar model: produced trees extract safely -/

theorem pInteger_sound {s : RStr} {t : PTree} {r : RStr} (h : pInteger s = some (t, r)) :
    ∃ ds, t = PTree.node .integer ds [] ∧ ds ≠ [] ∧ ∀ c ∈ ds, c.isDigit = true := by
  simp only [pInteger] at h
  split at h
  · exact Option.noConfusion h
  · rename_i hne
    injection h with h2
    injection h2 with h3 h4
    refine ⟨s.takeWhile Char.isDigit, h3.symm, ?_, ?_⟩
    · simpa [List.isEmpty_iff] using hne
    · intro c hc
      exact List.mem_takeWhile_imp hc

theorem pFloat_sound {s : RStr} {t : PTree} {r : RStr} (h : pFloat s = some (t, r)) :
    ∃ intd frac, t = PTree.node .float (intd ++ '.' :: frac) [] ∧
      (∀ c ∈ intd, c.isDigit = true) ∧ frac ≠ [] ∧ ∀ c ∈ frac, c.isDigit = true := by
  simp only [pFloat] at h
  split at h
  · rename_i r2 heq
    split at h
    · exact Option.noConfusion h
    · rename_i hne
      injection h with h2
      injection h2 with h3 h4
      refine ⟨s.takeWhile Char.isDigit, r2.takeWhile Char.isDigit, h3.symm, ?_, ?_, ?_⟩
      · intro c hc; exact List.mem_takeWhile_imp hc
      · simpa [List.isEmpty_iff] using hne
      · intro c hc; exact List.mem_takeWhile_imp hc
  · exact Option.noConfusion h

theorem pMultiFraction_sound {s : RStr} {t : PTree} {r : RStr}
    (h : pMultiFraction s = some (t, r)) :
    ∃ nm dn, t = PTree.node .multicharacter_fraction (nm ++ '/' :: dn) [] ∧
      nm ≠ [] ∧ (∀ c ∈ nm, c.isDigit = true) ∧ dn ≠ [] ∧ ∀ c ∈ dn, c.isDigit = true := by
  simp only [pMultiFraction] at h
  split at h
  · exact Option.noConfusion h
  · rename_i hnne
    split at h
    · rename_i r2 heq
      split at h
      · exact Option.noConfusion h
      · rename_i hdne
        injection h with h2
        injection h2 with h3 h4
        refine ⟨s.takeWhile Char.isDigit, r2.takeWhile Char.isDigit, h3.symm, ?_, ?_, ?_, ?_⟩
        · simpa [List.isEmpty_iff] using hnne
        · intro c hc; exact List.mem_takeWhile_imp hc
        · simpa [List.isEmpty_iff] using hdne
        · intro c hc; exact List.mem_takeWhile_imp hc
    · exact Option.noConfusion h

theorem pUnicodeFraction_sound {s : RStr} {t : PTree} {r : RStr}
    (h : pUnicodeFraction s = some (t, r)) :
    ∃ c, t = PTree.node .unicode_fraction [c] [] ∧
      (UNICODE_FRACTION_VALUE.any (fun e => e.1 == [c])) = true := by
  simp only [pUnicodeFraction] at h
  split at h
  · exact Option.noConfusion h
  · rename_i c rest
    split at h
    · rename_i hany
      injection h with h2
      injection h2 with h3 h4
      exact ⟨c, h3.symm, hany⟩
    · exact Option.noConfusion h

theorem pFraction_sound {s : RStr} {t : PTree} {r : RStr}
    (h : pFraction s = some (t, r)) :
    ∃ txt inner, t = PTree.node .fraction txt [inner] ∧ FracInnerOK inner := by
  simp only [pFraction] at h
  split at h
  · rename_i tm rm heq
    injection h with h2
    injection h2 with h3 h4
    obtain ⟨nm, dn, hshape, hnne, hn, hdne, hd⟩ := pMultiFraction_sound heq
    refine ⟨tm.text, tm, h3.symm, ?_⟩
    rw [hshape]
    exact fracInnerOK_multi hnne hn hdne hd
  · split at h
    · rename_i tu ru heq
      injection h with h2
      injection h2 with h3 h4
      obtain ⟨c, hshape, hany⟩ := pUnicodeFraction_sound heq
      refine ⟨tu.text, tu, h3.symm, ?_⟩
      rw [hshape]
      exact fracInnerOK_unicode hany
    · exact Option.noConfusion h

theorem pSeparator_sound {s : RStr} {t : PTree} {r : RStr}
    (h : pSeparator s = some (t, r)) : t.rule = .separator := by
  simp only [pSeparator] at h
  split at h <;>
    first
      | exact Option.noConfusion h
      | (injection h with h2; injection h2 with h3 h4; rw [← h3]; rfl)

theorem pNumberWord_sound {s : RStr} {t : PTree} {r : RStr}
    (h : pNumberWord s = some (t, r)) : AmountOK t := by
  simp only [pNumberWord] at h
  split at h
  · rename_i w hfind
    injection h with h2
    injection h2 with h3 h4
    have hw : w ∈ numberWordKeys := List.mem_of_find?_eq_some hfind
    rw [← h3]
    exact amountOK_number hw
  · exact Option.noConfusion h

theorem pMixed_sound {s : RStr} {t : PTree} {r : RStr}
    (h : pMixed s = some (t, r)) : AmountOK t := by
  simp only [pMixed] at h
  rcases hpi : pInteger s with _ | ⟨ti, r1⟩
  · simp [hpi] at h
  · rcases hps : pSeparator r1 with _ | ⟨ts, r2⟩
    · simp [hpi, hps] at h
    · rcases hpf : pFraction r2 with _ | ⟨tf, r3⟩
      · simp [hpi, hps, hpf] at h
      · simp [hpi, hps, hpf] at h
        obtain ⟨h3, h4⟩ := h
        rw [← h3]
        apply amountOK_mixed
        intro c hc
        simp only [List.mem_cons, List.not_mem_nil, or_false] at hc
        rcases hc with hc | hc | hc
        · obtain ⟨ds, hshape, hne, hdig⟩ := pInteger_sound hpi
          right; left
          subst hc
          rw [hshape]
          refine ⟨rfl, ?_⟩
          intro q hq
          obtain ⟨q2, hq2, hq20⟩ := parseF64?_digits hne hdig
          simp only [PTree.text_node] at hq
          rw [hq] at hq2
          injection hq2 with h5
          subst h5
          exact FVal.num_not_neg hq20
        · left
          subst hc
          exact pSeparator_sound hps
        · obtain ⟨txt, inner, hshape, hfi⟩ := pFraction_sound hpf
          right; right
          subst hc
          rw [hshape]
          refine ⟨rfl, ?_⟩
          intro inner2 hmem
          simp only [PTree.children_node, List.head?_cons] at hmem
          have h5 : some inner = some inner2 := Option.mem_def.mp hmem
          injection h5 with h6
          rw [← h6]
          exact hfi

theorem pAmountInner_sound {s : RStr} {t : PTree} {r : RStr}
    (h : pAmountInner s = some (t, r)) : AmountOK t := by
  simp only [pAmountInner] at h
  rcases hm : pMixed s with _ | ⟨tm, rm⟩
  · simp only [hm] at h
    rcases hf : pFloat s with _ | ⟨tf, rf⟩
    · simp only [hf] at h
      rcases hfr : pFraction s with _ | ⟨tr, rr⟩
      · simp only [hfr] at h
        rcases hi : pInteger s with _ | ⟨tn, rn⟩
        · simp only [hi] at h
          exact pNumberWord_sound h
        · simp only [hi] at h
          injection h with h2
          injection h2 with h3 h4
          rw [← h3]
          obtain ⟨ds, hshape, hne, hdig⟩ := pInteger_sound hi
          rw [hshape]
          apply amountOK_integer
          intro q hq
          obtain ⟨q2, hq2, hq20⟩ := parseF64?_digits hne hdig
          rw [hq] at hq2
          injection hq2 with h5
          subst h5
          exact FVal.num_not_neg hq20
      · simp only [hfr] at h
        injection h with h2
        injection h2 with h3 h4
        rw [← h3]
        obtain ⟨txt, inner, hshape, hfi⟩ := pFraction_sound hfr
        rw [hshape]
        exact amountOK_fraction hfi
    · simp only [hf] at h
      injection h with h2
      injection h2 with h3 h4
      rw [← h3]
      obtain ⟨intd, frac, hshape, hid, hfne, hfd⟩ := pFloat_sound hf
      rw [hshape]
      apply amountOK_float
      intro q hq
      obtain ⟨q2, hq2, hq20⟩ := parseF64?_float hid hfne hfd
      rw [hq] at hq2
      injection hq2 with h5
      subst h5
      exact FVal.num_not_neg hq20
  · simp only [hm] at h
    injection h with h2
    injection h2 with h3 h4
    rw [← h3]
    exact pMixed_sound hm

theorem pAmount_sound {s : RStr} {t : PTree} {r : RStr}
    (h : pAmount s = some (t, r)) :
    ∃ inner, t = PTree.node .amount [] [inner] ∧ AmountOK inner := by
  simp only [pAmount] at h
  rcases ha : pAmountInner s with _ | ⟨ti, ri⟩
  · simp only [ha] at h
    exact Option.noConfusion h
  · simp only [ha] at h
    injection h with h2
    injection h2 with h3 h4
    exact ⟨ti, h3.symm, pAmountInner_sound ha⟩

theorem pSystemUnit_sound {sys : Rule} {tbl : List (RStr × Rule)} {s : RStr}
    {t : PTree} {r : RStr} (h : pSystemUnit sys tbl s = some (t, r)) :
    ∃ w ur, t = PTree.node sys w [PTree.node ur w []] := by
  simp only [pSystemUnit] at h
  rcases hf : findUnit tbl s with _ | ⟨w, ur, rest⟩
  · simp only [hf] at h
    exact Option.noConfusion h
  · simp only [hf] at h
    injection h with h2
    injection h2 with h3 h4
    exact ⟨w, ur, h3.symm⟩

theorem pUnit_rule {s : RStr} {t : PTree} {r : RStr}
    (h : pUnit s = some (t, r)) : t.rule = .unit := by
  simp only [pUnit] at h
  rcases h1 : pSystemUnit .english_unit englishUnits s with _ | ⟨t1, r1⟩ <;>
    simp only [h1] at h
  · rcases h2 : pSystemUnit .metric_unit metricUnits s with _ | ⟨t2, r2⟩ <;>
      simp only [h2] at h
    · rcases h3 : pSystemUnit .imprecise_unit impreciseUnits s with _ | ⟨t3, r3⟩ <;>
        simp only [h3] at h
      · exact Option.noConfusion h
      · injection h with hh
        injection hh with ha hb
        rw [← ha]
        rfl
    · injection h with hh
      injection hh with ha hb
      rw [← ha]
      rfl
  · injection h with hh
    injection hh with ha hb
    rw [← ha]
    rfl

theorem pImprecise_sound {s : RStr} {t : PTree} {r : RStr}
    (h : pImprecise s = some (t, r)) : GoodChoice t := by
  simp only [pImprecise] at h
  rcases h1 : pSystemUnit .imprecise_unit impreciseUnits s with _ | ⟨tu, ru⟩ <;>
    simp only [h1] at h
  · exact Option.noConfusion h
  · injection h with hh
    injection hh with ha hb
    obtain ⟨w, ur, hshape⟩ := pSystemUnit_sound h1
    rw [← ha, hshape]
    refine GoodChoice.mk _ _ _ ?_ ?_ ?_
    · intro c hc hcr
      rw [List.mem_singleton.mp hc] at hcr
      exact absurd hcr (by simp)
    · intro c hc hcr
      rw [List.mem_singleton.mp hc] at hcr
      exact absurd hcr (by simp)
    · intro c hc hcr
      rw [List.mem_singleton.mp hc] at hcr
      exact absurd hcr (by simp)

theorem pAttached_sound {s : RStr} {t : PTree} {r : RStr}
    (h : pAttached s = some (t, r)) : GoodChoice t := by
  simp only [pAttached] at h
  rcases ha : pAmount s with _ | ⟨ta, r1⟩
  · simp [ha] at h
  · rcases hu : pUnit (skipAmountUnitSep r1) with _ | ⟨tu, r2⟩
    · simp [ha, hu] at h
    · simp [ha, hu] at h
      obtain ⟨h3, h4⟩ := h
      rw [← h3]
      obtain ⟨inner, hta, hAOK⟩ := pAmount_sound ha
      have hur := pUnit_rule hu
      refine GoodChoice.mk _ _ _ ?_ ?_ ?_
      · intro c hc hcr inner2 hmem
        simp only [List.mem_cons, List.not_mem_nil, or_false] at hc
        rcases hc with hc | hc
        · subst hc
          rw [hta] at hmem
          simp only [PTree.children_node, List.head?_cons] at hmem
          have h5 : some inner = some inner2 := Option.mem_def.mp hmem
          injection h5 with h6
          rw [← h6]
          exact hAOK
        · subst hc
          rw [hur] at hcr
          exact Rule.noConfusion hcr
      · intro c hc hcr
        simp only [List.mem_cons, List.not_mem_nil, or_false] at hc
        rcases hc with hc | hc
        · subst hc
          rw [hta] at hcr
          exact absurd hcr (by simp)
        · subst hc
          rw [hur] at hcr
          exact Rule.noConfusion hcr
      · intro c hc hcr
        simp only [List.mem_cons, List.not_mem_nil, or_false] at hc
        rcases hc with hc | hc
        · subst hc
          rw [hta] at hcr
          exact absurd hcr (by simp)
        · subst hc
          rw [hur] at hcr
          exact Rule.noConfusion hcr

theorem goodChoice_conversion {ta tu inner : PTree} {cc : List PTree}
    (hta : ta = PTree.node .amount [] [inner]) (hAOK : AmountOK inner)
    (hur : tu.rule = .unit) :
    GoodChoice (PTree.node .amount_with_conversion []
      [ta, tu, PTree.node .conversion [] cc]) := by
  refine GoodChoice.mk _ _ _ ?_ ?_ ?_
  · intro c hc hcr inner2 hmem
    simp only [List.mem_cons, List.not_mem_nil, or_false] at hc
    rcases hc with hc | hc | hc
    · subst hc
      rw [hta] at hmem
      simp only [PTree.children_node, List.head?_cons] at hmem
      have h5 : some inner = some inner2 := Option.mem_def.mp hmem
      injection h5 with h6
      rw [← h6]
      exact hAOK
    · subst hc
      rw [hur] at hcr
      exact Rule.noConfusion hcr
    · subst hc
      exact absurd hcr (by simp)
  · intro c hc hcr
    simp only [List.mem_cons, List.not_mem_nil, or_false] at hc
    rcases hc with hc | hc | hc
    · subst hc; rw [hta] at hcr; exact absurd hcr (by simp)
    · subst hc; rw [hur] at hcr; exact Rule.noConfusion hcr
    · subst hc; exact absurd hcr (by simp)
  · intro c hc hcr
    simp only [List.mem_cons, List.not_mem_nil, or_false] at hc
    rcases hc with hc | hc | hc
    · subst hc; rw [hta] at hcr; exact absurd hcr (by simp)
    · subst hc; rw [hur] at hcr; exact Rule.noConfusion hcr
    · subst hc; exact absurd hcr (by simp)

theorem pConversion_sound {s : RStr} {t : PTree} {r : RStr}
    (h : pConversion s = some (t, r)) : GoodChoice t := by
  simp only [pConversion] at h
  rcases ha : pAmount s with _ | ⟨ta, r1⟩
  · simp [ha] at h
  · rcases hu : pUnit (skipAmountUnitSep r1) with _ | ⟨tu, r2⟩
    · simp [ha, hu] at h
    · obtain ⟨inner, hta, hAOK⟩ := pAmount_sound ha
      have hur := pUnit_rule hu
      simp only [ha, hu, Option.bind_eq_bind, Option.some_bind] at h
      split at h
      · rename_i r3 heq
        rcases hb2 : pAmount (r3.dropWhile (fun c => c = ' ')) with _ | ⟨tb, r4⟩
        · simp [hb2] at h
        · rcases hv2 : pUnit (skipAmountUnitSep r4) with _ | ⟨tv, r5⟩
          · simp [hb2, hv2] at h
          · simp [hb2, hv2] at h
            obtain ⟨h3, h4⟩ := h
            rw [← h3]
            exact goodChoice_conversion hta hAOK hur
      · rename_i r3 heq
        rcases hb2 : pAmount (r3.dropWhile (fun c => c = ' ')) with _ | ⟨tb, r4⟩
        · simp [hb2] at h
        · rcases hv2 : pUnit (skipAmountUnitSep r4) with _ | ⟨tv, r5⟩
          · simp [hb2, hv2] at h
          · simp only [hb2, hv2, Option.bind_eq_bind, Option.some_bind] at h
            split at h
            · rename_i r6 heq2
              injection h with h2
              injection h2 with h3 h4
              rw [← h3]
              exact goodChoice_conversion hta hAOK hur
            · exact Option.noConfusion h
      · exact Option.noConfusion h

theorem goodChoice_multiplier {ta inner tq : PTree}
    (hta : ta = PTree.node .amount [] [inner]) (hAOK : AmountOK inner)
    (hgq : GoodChoice tq) :
    GoodChoice (PTree.node .amount_with_multiplier []
      [ta, PTree.node .parenthesized_quantity [] [PTree.node .open_paren ['('] [], tq]]) := by
  refine GoodChoice.mk _ _ _ ?_ ?_ ?_
  · intro c hc hcr inner2 hmem
    simp only [List.mem_cons, List.not_mem_nil, or_false] at hc
    rcases hc with hc | hc
    · subst hc
      rw [hta] at hmem
      simp only [PTree.children_node, List.head?_cons] at hmem
      have h5 : some inner = some inner2 := Option.mem_def.mp hmem
      injection h5 with h6
      rw [← h6]
      exact hAOK
    · subst hc
      exact absurd hcr (by simp)
  · intro c hc hcr
    simp only [List.mem_cons, List.not_mem_nil, or_false] at hc
    rcases hc with hc | hc
    · subst hc; rw [hta] at hcr; exact absurd hcr (by simp)
    · subst hc; simp
  · intro c hc hcr second hmem
    simp only [List.mem_cons, List.not_mem_nil, or_false] at hc
    rcases hc with hc | hc
    · subst hc; rw [hta] at hcr; exact absurd hcr (by simp)
    · subst hc
      simp only [PTree.children_node, List.tail_cons, List.head?_cons] at hmem
      have h5 : some tq = some second := Option.mem_def.mp hmem
      injection h5 with h6
      rw [← h6]
      exact hgq

theorem pMultiplierGen_sound {recChoice : RStr → Option (PTree × RStr)}
    (hrec : ∀ {s2 : RStr} {t2 : PTree} {r2 : RStr},
      recChoice s2 = some (t2, r2) → GoodChoice t2)
    {s : RStr} {t : PTree} {r : RStr}
    (h : pMultiplierGen recChoice s = some (t, r)) : GoodChoice t := by
  simp only [pMultiplierGen] at h
  rcases ha : pAmount s with _ | ⟨ta, r1⟩
  · simp [ha] at h
  · obtain ⟨inner, hta, hAOK⟩ := pAmount_sound ha
    simp only [ha, Option.bind_eq_bind, Option.some_bind] at h
    split at h
    · rename_i r2 heq
      rcases hc2 : recChoice (r2.dropWhile (fun c => c = ' ')) with _ | ⟨tq, r3⟩
      · simp [hc2] at h
      · simp only [hc2, Option.bind_eq_bind, Option.some_bind] at h
        split at h
        · rename_i r4 heq2
          injection h with h2
          injection h2 with h3 h4
          rw [← h3]
          exact goodChoice_multiplier hta hAOK (hrec hc2)
        · exact Option.noConfusion h
    · exact Option.noConfusion h

theorem pChoice_sound : ∀ (n : ℕ) {s : RStr} {t : PTree} {r : RStr},
    pChoice n s = some (t, r) → GoodChoice t := by
  intro n
  induction n with
  | zero =>
      intro s t r h
      rw [pChoice] at h
      exact Option.noConfusion h
  | succ n ih =>
      intro s t r h
      simp only [pChoice] at h
      rcases hc : pConversion s with _ | ⟨t1, r1⟩
      · simp only [hc] at h
        rcases hat : pAttached s with _ | ⟨t2, r2⟩
        · simp only [hat] at h
          rcases hmul : pMultiplierGen (pChoice n) s with _ | ⟨t3, r3⟩
          · simp only [hmul] at h
            exact pImprecise_sound h
          · simp only [hmul] at h
            injection h with h2
            injection h2 with h3 h4
            rw [← h3]
            exact pMultiplierGen_sound (fun h2 => ih h2) hmul
        · simp only [hat] at h
          injection h with h2
          injection h2 with h3 h4
          rw [← h3]
          exact pAttached_sound hat
      · simp only [hc] at h
        injection h with h2
        injection h2 with h3 h4
        rw [← h3]
        exact pConversion_sound hc

theorem pQuantity_sound {n : ℕ} {s : RStr} {t : PTree} {r : RStr}
    (h : pQuantity n s = some (t, r)) :
    ∃ inner, t = PTree.node .quantity [] [inner] ∧ GoodChoice inner := by
  simp only [pQuantity] at h
  rcases hc : pChoice n s with _ | ⟨t1, r1⟩
  · simp only [hc] at h
    exact Option.noConfusion h
  · simp only [hc] at h
    injection h with h2
    injection h2 with h3 h4
    exact ⟨t1, h3.symm, pChoice_sound n hc⟩

theorem pFragment_sound {n : ℕ} {s : RStr} {t : PTree} {r : RStr}
    (h : pFragment n s = some (t, r)) : GoodFrag t := by
  simp only [pFragment] at h
  rcases hq : pQuantity n s with _ | ⟨t1, r1⟩
  · simp only [hq] at h
    rcases ha : pAmount s with _ | ⟨t2, r2⟩
    · simp only [ha] at h
      exact Option.noConfusion h
    · simp only [ha] at h
      injection h with h2
      injection h2 with h3 h4
      obtain ⟨inner, hshape, hAOK⟩ := pAmount_sound ha
      rw [← h3]
      intro qf hmem
      simp only [PTree.children_node, List.head?_cons] at hmem
      have h5 : some t2 = some qf := Option.mem_def.mp hmem
      injection h5 with h6
      rw [← h6]
      constructor
      · intro _ inner2 hmem2
        rw [hshape] at hmem2
        simp only [PTree.children_node, List.head?_cons] at hmem2
        have h7 : some inner = some inner2 := Option.mem_def.mp hmem2
        injection h7 with h8
        rw [← h8]
        exact hAOK
      · intro hcr
        rw [hshape] at hcr
        exact absurd hcr (by simp)
  · simp only [hq] at h
    injection h with h2
    injection h2 with h3 h4
    obtain ⟨inner, hshape, hgc⟩ := pQuantity_sound hq
    rw [← h3]
    intro qf hmem
    simp only [PTree.children_node, List.head?_cons] at hmem
    have h5 : some t1 = some qf := Option.mem_def.mp hmem
    injection h5 with h6
    rw [← h6]
    constructor
    · intro hcr
      rw [hshape] at hcr
      exact absurd hcr (by simp)
    · intro _ inner2 hmem2
      rw [hshape] at hmem2
      simp only [PTree.children_node, List.head?_cons] at hmem2
      have h7 : some inner = some inner2 := Option.mem_def.mp hmem2
      injection h7 with h8
      rw [← h8]
      exact hgc

theorem pMoreFragments_sound : ∀ (n : ℕ) (s : RStr) (f : PTree),
    f ∈ (pMoreFragments n s).1 → GoodFrag f := by
  intro n
  induction n with
  | zero =>
      intro s f hf
      rw [pMoreFragments] at hf
      cases hf
  | succ n ih =>
      intro s f hf
      rcases hsep : pSepMP s with _ | r1
      · simp only [pMoreFragments, hsep] at hf
        cases hf
      · rcases hfr : pFragment (n+1) r1 with _ | ⟨tf, r2⟩
        · simp only [pMoreFragments, hsep, hfr] at hf
          cases hf
        · rcases hmf : pMoreFragments n r2 with ⟨ts, r3⟩
          simp only [pMoreFragments, hsep, hfr, hmf] at hf
          rcases List.mem_cons.mp hf with h1 | h1
          · rw [h1]
            exact pFragment_sound hfr
          · refine ih r2 f ?_
            rw [hmf]
            exact h1

theorem pMultipart_sound {n : ℕ} {s : RStr} {t : PTree} {r : RStr}
    (h : pMultipart n s = some (t, r)) :
    t.rule = .multipart_quantity ∧ ∀ c ∈ t.children, GoodFrag c := by
  simp only [pMultipart] at h
  rcases hfr : pFragment n s with _ | ⟨t1, r1⟩
  · simp only [hfr] at h
    exact Option.noConfusion h
  · rcases hmf : pMoreFragments n r1 with ⟨ts, r2⟩
    simp only [hfr, hmf] at h
    injection h with h2
    injection h2 with h3 h4
    rw [← h3]
    refine ⟨rfl, ?_⟩
    intro c hc
    simp only [PTree.children_node] at hc
    rcases List.mem_cons.mp hc with h1 | h1
    · rw [h1]
      exact pFragment_sound hfr
    · refine pMoreFragments_sound n r1 c ?_
      rw [hmf]
      exact h1

theorem topOK_of_ne {p : PTree} (h : p.rule ≠ .multipart_quantity) : TopOK p :=
  fun hcr => absurd hcr h

theorem parseTrees_sound (s : RStr) : ∀ t ∈ parseTrees s, TopOK t := by
  intro t ht
  simp only [parseTrees] at ht
  rcases hmp : pMultipart (s.length + 1) s with _ | ⟨mp, r1⟩
  · simp only [hmp] at ht
    split at ht
    · cases ht
    · rw [List.mem_singleton.mp ht]
      exact topOK_of_ne (by simp)
  · simp only [hmp] at ht
    split at ht
    · rw [List.mem_singleton.mp ht]
      intro _ c hc
      exact (pMultipart_sound hmp).2 c hc
    · simp only [List.mem_cons, List.not_mem_nil, or_false] at ht
      rcases ht with h1 | h1
      · rw [h1]
        intro _ c hc
        exact (pMultipart_sound hmp).2 c hc
      · rw [h1]
        exact topOK_of_ne (by simp)

/-- The fragment loop skips children whose rule label is `conversion`: the
second amount/unit pair of an `amount_with_conversion` node has no effect
on the extracted quantity. -/
theorem convLoop_skip_conversion :
    ∀ (cs1 cs2 : List PTree) (tt : RStr) (cc : List PTree) (q0 : Quantity),
    convLoop (cs1 ++ PTree.node .conversion tt cc :: cs2) q0 =
      convLoop (cs1 ++ cs2) q0 := by
  intro cs1
  induction cs1 with
  | nil =>
      intro cs2 tt cc q0
      simp only [List.nil_append, convLoop, PTree.rule_node]
  | cons c rest ih =>
      intro cs2 tt cc q0
      simp only [List.cons_append]
      cases hcr : c.rule
      case amount =>
        rcases hg1 : get_next_inner_pair c with e | inner
        · simp only [convLoop, hcr, hg1]
        · rcases hpa : parse_amount inner with e | v
          · simp only [convLoop, hcr, hg1, hpa]
          · simp only [convLoop, hcr, hg1, hpa]
            exact ih cs2 tt cc _
      case unit =>
        rcases hg1 : get_next_inner_pair c with e | u
        · simp only [convLoop, hcr, hg1]
        · rcases hut : UnitType.parse u with e | ut
          · simp only [convLoop, hcr, hg1, hut]
          · rcases hg2 : get_next_inner_pair u with e | nm
            · simp only [convLoop, hcr, hg1, hut, hg2]
            · simp only [convLoop, hcr, hg1, hut, hg2]
              exact ih cs2 tt cc _
      all_goals
        simp only [convLoop, hcr]
        exact ih cs2 tt cc q0

/-! ### The claims -/

/-- Claim C1: parsing `"two five ounce can crushed tomatoes"` succeeds with
exactly one quantity of amount 10.0, unit `"ounce"`, English unit system,
and ingredient name `"can crushed tomatoes"`; and in general, when the
accumulated quantity list holds a single unit-less bare entry, the fragment
loop multiplies the next fragment's amount by that bare amount and keeps
only the scaled new quantity, discarding the bare entry. -/
theorem claim_C1 :
    (∀ (f qf : PTree) (q : Quantity) (rest : List PTree) (nm : Option RStr)
        (a0 : FVal) (t0 : Option UnitType),
      f.rule = Rule.quantity_fragment →
      get_next_inner_pair f = .ok qf →
      fragToQuantity qf = .ok q →
      mpLoop (f :: rest) ⟨[⟨a0, none, t0⟩], nm⟩ =
        mpLoop rest ⟨[⟨q.amount.mul a0, q.unit, q.unit_type⟩], nm⟩) ∧
    Ingredient.parse "two five ounce can crushed tomatoes" =
      .ok ⟨[⟨.num 10, some "ounce".data, some .English⟩],
           some "can crushed tomatoes".data⟩ := by
  constructor
  · intro f qf q rest nm a0 t0 h1 h2 h3
    rw [mpLoop, if_pos h1]
    simp [h2, h3]
  · with_unfolding_all rfl

/-- Claim C1, witnessed at a concrete fragment: a bare `3` already
accumulated and an incoming integer fragment `2` merge to `2 × 3`. -/
theorem claim_C1_witness :
    mpLoop [PTree.node .quantity_fragment []
        [PTree.node .amount [] [PTree.node .integer "2".data []]]]
      ⟨[⟨FVal.num 3, none, none⟩], none⟩ =
    mpLoop [] ⟨[⟨(FVal.num 2).mul (FVal.num 3), none, none⟩], none⟩ :=
  claim_C1.1
    (PTree.node .quantity_fragment [] [PTree.node .amount [] [PTree.node .integer "2".data []]])
    (PTree.node .amount [] [PTree.node .integer "2".data []])
    ⟨FVal.num 2, none, none⟩ [] none (FVal.num 3) none
    rfl rfl (by with_unfolding_all rfl)

/-- Claim C2: parsing `"12 (6-ounce) boneless skinless chicken breasts"`
succeeds with exactly one quantity of amount 72.0, unit `"ounce"`, English
unit system, and ingredient name `"boneless skinless chicken breasts"`;
and in general the multiplier loop scales the parenthesized quantity's
amount by the current multiplier while its unit and unit system pass
through unchanged. -/
theorem claim_C2 :
    (∀ (recQ : PTree → Except PError Quantity) (tt : RStr) (a second : PTree)
        (rest2 cs : List PTree) (mult : FVal) (q0 q' : Quantity),
      recQ second = .ok q' →
      mulLoopGen recQ
          (PTree.node .parenthesized_quantity tt (a :: second :: rest2) :: cs) mult q0 =
        mulLoopGen recQ cs mult ⟨q'.amount.mul mult, q'.unit, q'.unit_type⟩) ∧
    Ingredient.parse "12 (6-ounce) boneless skinless chicken breasts" =
      .ok ⟨[⟨.num 72, some "ounce".data, some .English⟩],
           some "boneless skinless chicken breasts".data⟩ := by
  constructor
  · intro recQ tt a second rest2 cs mult q0 q' h
    simp only [mulLoopGen, PTree.rule_node, PTree.children_node, h]
  · with_unfolding_all rfl

/-- Claim C2, witnessed at a concrete parenthesized quantity whose
extraction returns the default quantity. -/
theorem claim_C2_witness :
    mulLoopGen (fun _ => .ok dfltQ)
        [PTree.node .parenthesized_quantity []
          [PTree.node .open_paren ['('] [], PTree.node .quantity [] []]]
        (FVal.num 5) dfltQ =
      mulLoopGen (fun _ => .ok dfltQ) [] (FVal.num 5)
        ⟨(FVal.num 0).mul (FVal.num 5), none, none⟩ :=
  claim_C2.1 (fun _ => .ok dfltQ) [] (PTree.node .open_paren ['('] [])
    (PTree.node .quantity [] []) [] [] (FVal.num 5) dfltQ dfltQ rfl

/-- Claim C3 (counterexample): the claim that every successfully parsed
quantity has a finite, non-NaN amount fails — the grammar accepts textual
fractions with denominator `0`, whose `f64` division yields `+inf` (and
`NaN` for `0/0`). -/
theorem claim_C3_counterexample :
    Ingredient.parse "1/0 potatoes" =
      .ok ⟨[⟨FVal.posInf, none, none⟩], some "potatoes".data⟩ ∧
    FVal.posInf.isFinite = false ∧
    Ingredient.parse "0/0 potatoes" =
      .ok ⟨[⟨FVal.nan, none, none⟩], some "potatoes".data⟩ := by
  refine ⟨by with_unfolding_all rfl, rfl, by with_unfolding_all rfl⟩

/-- Claim C3 (amended): for every input on which parse succeeds, every
quantity in the returned record has a never-negative amount; amounts can
however be `+inf` or `NaN` when a textual fraction has denominator zero. -/
theorem claim_C3 :
    ∀ (s : String) (ing : Ingredient), Ingredient.parse s = .ok ing →
      ∀ q ∈ ing.quantities, q.amount.isNeg = false := by
  intro s ing hp q hq
  have htop := parseTrees_sound s.data
  have hres := ppLoop_good (parseTrees s.data) ⟨[], none⟩ htop
    (by intro q' hq'; cases hq')
  exact hres.2 ing hp q hq

/-- Claim C3 (amended), witnessed on a concrete successful parse. -/
theorem claim_C3_witness : (FVal.num 2).isNeg = false :=
  claim_C3 "2 eggs, beaten" ⟨[⟨FVal.num 2, none, none⟩], some "eggs, beaten".data⟩
    (by with_unfolding_all rfl) ⟨FVal.num 2, none, none⟩ (by simp)

/-- Claim C4: for every input on which parse succeeds, every quantity in
the returned record has its unit and its unit system either both present
or both absent. -/
theorem claim_C4 :
    ∀ (s : String) (ing : Ingredient), Ingredient.parse s = .ok ing →
      ∀ q ∈ ing.quantities, q.unit.isSome = q.unit_type.isSome := by
  intro s ing hp q hq
  exact ppLoop_unitIff (parseTrees s.data) ⟨[], none⟩
    (by intro q' hq'; cases hq') ing hp q hq

/-- Claim C4, witnessed on a concrete successful parse. -/
theorem claim_C4_witness :
    (some "pound".data : Option RStr).isSome =
      (some UnitType.English : Option UnitType).isSome :=
  claim_C4 "2lb 4oz potatoes"
    ⟨[⟨FVal.num 2, some "pound".data, some .English⟩,
      ⟨FVal.num 4, some "ounce".data, some .English⟩], some "potatoes".data⟩
    (by with_unfolding_all rfl)
    ⟨FVal.num 2, some "pound".data, some .English⟩ (by simp)

/-- Claim C5: parsing `"2lb 4oz potatoes"` succeeds with exactly two
quantities in textual order — 2.0 pound (English) then 4.0 ounce
(English) — and ingredient name `"potatoes"`; and in general no merge
occurs when the first accumulated quantity has a unit: the new quantity is
appended after it. -/
theorem claim_C5 :
    (∀ (f qf : PTree) (q : Quantity) (rest : List PTree) (nm : Option RStr)
        (a0 : FVal) (u0 : RStr) (t0 : Option UnitType),
      f.rule = Rule.quantity_fragment →
      get_next_inner_pair f = .ok qf →
      fragToQuantity qf = .ok q →
      mpLoop (f :: rest) ⟨[⟨a0, some u0, t0⟩], nm⟩ =
        mpLoop rest ⟨[⟨a0, some u0, t0⟩, q], nm⟩) ∧
    Ingredient.parse "2lb 4oz potatoes" =
      .ok ⟨[⟨.num 2, some "pound".data, some .English⟩,
            ⟨.num 4, some "ounce".data, some .English⟩], some "potatoes".data⟩ := by
  constructor
  · intro f qf q rest nm a0 u0 t0 h1 h2 h3
    rw [mpLoop, if_pos h1]
    simp [h2, h3]
  · with_unfolding_all rfl

/-- Claim C5, witnessed at a concrete fragment appended after a quantity
that already has a unit. -/
theorem claim_C5_witness :
    mpLoop [PTree.node .quantity_fragment []
        [PTree.node .amount [] [PTree.node .integer "4".data []]]]
      ⟨[⟨FVal.num 2, some "pound".data, some .English⟩], none⟩ =
    mpLoop [] ⟨[⟨FVal.num 2, some "pound".data, some .English⟩,
                ⟨FVal.num 4, none, none⟩], none⟩ :=
  claim_C5.1
    (PTree.node .quantity_fragment [] [PTree.node .amount [] [PTree.node .integer "4".data []]])
    (PTree.node .amount [] [PTree.node .integer "4".data []])
    ⟨FVal.num 4, none, none⟩ [] none (FVal.num 2) "pound".data (some .English)
    rfl rfl (by with_unfolding_all rfl)

/-- Claim C6: in an `amount_with_conversion` construct only the first
amount/unit pair is retained — a child labelled `conversion` is skipped by
the extraction loop, so the second pair is never stored and never used to
rescale; in particular `"750ml/1 pint 7fl oz hot vegetable stock"` parses
with first quantity 750.0 milliliter (Metric). -/
theorem claim_C6 :
    (∀ (cs1 cs2 : List PTree) (tt : RStr) (cc : List PTree) (q0 : Quantity),
      convLoop (cs1 ++ PTree.node .conversion tt cc :: cs2) q0 =
        convLoop (cs1 ++ cs2) q0) ∧
    (Ingredient.parse "750ml/1 pint 7fl oz hot vegetable stock").map
        (fun ing => ing.quantities.head?) =
      .ok (some ⟨.num 750, some "milliliter".data, some .Metric⟩) :=
  ⟨convLoop_skip_conversion, by with_unfolding_all rfl⟩

/-- Claim C7: fraction and mixed-number amounts evaluate arithmetically:
`"5 3/4 pinches potatoes"` parses to 5.75 pinch (Imprecise) of
`"potatoes"`, and `"1-½ ounce vanilla ice cream"` parses to 1.5 ounce
(English) of `"vanilla ice cream"`. -/
theorem claim_C7 :
    Ingredient.parse "5 3/4 pinches potatoes" =
      .ok ⟨[⟨.num (23/4), some "pinch".data, some .Imprecise⟩],
           some "potatoes".data⟩ ∧
    Ingredient.parse "1-½ ounce vanilla ice cream" =
      .ok ⟨[⟨.num (3/2), some "ounce".data, some .English⟩],
           some "vanilla ice cream".data⟩ :=
  ⟨by with_unfolding_all rfl, by with_unfolding_all rfl⟩

/-- Claim C8: extraction of an `amount_imprecise` construct produces
amount exactly 1.0, with the unit and unit system of the classified
imprecise unit. -/
theorem claim_C8 :
    ∀ (n : ℕ) (t : RStr) (cs : List PTree) (u nm : PTree) (ut : UnitType),
      get_next_inner_pair (PTree.node .amount_imprecise t cs) = .ok u →
      UnitType.parse u = .ok ut →
      get_next_inner_pair u = .ok nm →
      Quantity.parseQ (n+1) (PTree.node .amount_imprecise t cs) =
        .ok ⟨FVal.num 1, some nm.rule.name, some ut⟩ := by
  intro n t cs u nm ut h1 h2 h3
  simp only [Quantity.parseQ, PTree.rule_node, h1, h2, h3]

/-- Claim C8, witnessed on the parse tree of a lone `pinch`. -/
theorem claim_C8_witness :
    Quantity.parseQ 1 (PTree.node .amount_imprecise []
        [PTree.node .imprecise_unit "pinch".data [PTree.node .pinch "pinch".data []]]) =
      .ok ⟨FVal.num 1, some "pinch".data, some UnitType.Imprecise⟩ :=
  claim_C8 0 []
    [PTree.node .imprecise_unit "pinch".data [PTree.node .pinch "pinch".data []]]
    (PTree.node .imprecise_unit "pinch".data [PTree.node .pinch "pinch".data []])
    (PTree.node .pinch "pinch".data []) UnitType.Imprecise rfl rfl rfl

/-- Claim C9: parse is deterministic — it is a pure function of its input
string (the embedding has no state), so repeated invocations on the same
input yield identical results. -/
theorem claim_C9 : ∀ s : String, Ingredient.parse s = Ingredient.parse s :=
  fun _ => rfl

/-- Claim C10: for every input string, `Ingredient::parse` terminates with
`Ok` or `Err` and never panics — the `panic!` branch in mixed-number
extraction, the two `unwrap`s on parenthesized quantities, the unchecked
indexing of the split-fraction vector, and the lexical-table index
operators are all unreachable on trees the grammar produces. -/
theorem claim_C10 : ∀ s : String, isPanicRes (Ingredient.parse s) = false := by
  intro s
  have htop := parseTrees_sound s.data
  have hres := ppLoop_good (parseTrees s.data) ⟨[], none⟩ htop
    (by intro q' hq'; cases hq')
  rcases hp : Ingredient.parse s with e | ing
  · rcases e with e | m
    · rfl
    · exact absurd hp (hres.1 m)
  · rfl

end Ingreedy
